import Mathlib

/-!
Verification of the incremental JSON decoder and the decycling serializer of
`src/utils/json.js` (functions `jsonRawDecode`, `jsonDecode`, `decycle`).

The JavaScript source is shallowly embedded: buffers are `List Char`,
JavaScript values produced by the decoder are the inductive `JValue`
(including `JValue.undef` for the JavaScript value `undefined`), the regex
tokenizer is the executable scanner `tokenize`, the token-consuming stack
machine is `runToks`, and the unbounded recursion of `jsonDecode` is made
total with an explicit fuel counter (`none` = the recursion did not finish
within the given fuel).  `decycle` works on object graphs with identity, so
graphs are embedded explicitly as a store of numbered nodes (`Graph`) with
`GVal.ref` playing the role of a JavaScript object reference; the WeakMap
memo becomes an association list of (address, path) pairs.
-/

namespace BleJson

/-- A decoded JavaScript value.  `undef` models the JavaScript value
`undefined` (which the decoder can return, and which a reviver returns to
delete a property).  Numbers keep the raw matched text: the source converts
the token text with unary `+`, and no claim distinguishes two spellings of
the same double, so the raw text is the faithful payload. -/
inductive JValue where
  | undef
  | null
  | bool (b : Bool)
  | num (raw : String)
  | str (s : String)
  | arr (elems : List JValue)
  | obj (fields : List (String × JValue))

/-- JavaScript word characters, as used by the regex `\b` boundary:
`[A-Za-z0-9_]`. -/
def isWordChar (c : Char) : Bool :=
  c.isAlpha || c.isDigit || c = '_'

/-- Value of one hexadecimal digit. -/
def hexVal (c : Char) : Option Nat :=
  if '0' ≤ c ∧ c ≤ '9' then some (c.toNat - '0'.toNat)
  else if 'a' ≤ c ∧ c ≤ 'f' then some (c.toNat - 'a'.toNat + 10)
  else if 'A' ≤ c ∧ c ≤ 'F' then some (c.toNat - 'A'.toNat + 10)
  else none

def isHexDigit (c : Char) : Bool := (hexVal c).isSome

/-- The decoder's escape table (`var escapes = {...}` in the source). -/
def escTable (c : Char) : Option Char :=
  if c = '"' then some '"'
  else if c = '/' then some '/'
  else if c = '\\' then some '\\'
  else if c = 'b' then some (Char.ofNat 8)
  else if c = 'f' then some (Char.ofNat 12)
  else if c = 'n' then some '\n'
  else if c = 'r' then some (Char.ofNat 13)
  else if c = 't' then some '\t'
  else none

/-- Numeric value of a four-character hex run (`parseInt(hex, 16)` on the
four characters captured by `u(.{4})`).  The string-token regex only lets
four hex digits through, so inside `jsonRawDecode` the digits are always
valid; for invalid digits `parseInt` would parse a shorter prefix or give
`NaN`, and `String.fromCharCode(NaN)` is `'\x00'` — we model the valid-hex
reading and note that the other cases are unreachable from the decoder. -/
def hex4 (a b c d : Char) : Nat :=
  match hexVal a, hexVal b, hexVal c, hexVal d with
  | some va, some vb, some vc, some vd => ((va * 16 + vb) * 16 + vc) * 16 + vd
  | _, _, _, _ => 0

/-- Model of `tok.replace(escapeSequence, unescapeOne)`: a left-to-right
scan replacing `\c` via the escape table and `\uXXXX` via `fromCharCode`.
A `\` whose escape cannot match (lone final `\`, or `\u` with fewer than 4
characters left) is left in place, exactly as an unmatched regex position.
A matched `\c` with `c` outside the table splices the text `undefined`
(JavaScript coerces the `undefined` replacement to that string). -/
def unescape : List Char → List Char
  | [] => []
  | c :: rest =>
      if c = '\\' then
        match rest with
        | 'u' :: a :: b :: c2 :: d :: rest3 => Char.ofNat (hex4 a b c2 d) :: unescape rest3
        | 'u' :: rest2 => '\\' :: 'u' :: unescape rest2
        | e :: rest2 =>
            (match escTable e with
             | some x => [x]
             | none => "undefined".toList) ++ unescape rest2
        | [] => ['\\']
      else c :: unescape rest

/-- Kind and payload of one lexical token.  String tokens keep the raw body
between the quotes (unescaping happens later, in the value builder, as in
the source). -/
inductive TokKind where
  | obrace
  | cbrace
  | obrack
  | cbrack
  | litTrue
  | litFalse
  | litNull
  | num (raw : List Char)
  | str (rawBody : List Char)
deriving Repr, DecidableEq

/-- A token together with its start offset and length in the scanned buffer
(the match object's `.index` and matched length). -/
structure Tok where
  kind : TokKind
  start : Nat
  len : Nat
deriving Repr, DecidableEq

/-- A character a string token may contain unescaped: the regex class
`[^\0-\x08\x0a-\x1f"\\]`. -/
def strPlain (c : Char) : Bool :=
  ¬ (c.toNat ≤ 8 ∨ (10 ≤ c.toNat ∧ c.toNat ≤ 31) ∨ c = '"' ∨ c = '\\')

/-- Greedy scan of the body of a string token (`oneChar*` of the regex),
returning the raw body and the remaining characters after the closing
quote, or `none` when no closing quote can be reached.  The starred unit
never matches `"`, so regex backtracking cannot produce a shorter
successful match and the greedy scan is exact. -/
def strBody : List Char → Option (List Char × List Char)
  | [] => none
  | c :: rest =>
      if c = '"' then some ([], rest)
      else if c = '\\' then
        match rest with
        | 'u' :: a :: b :: c2 :: d :: rest3 =>
            if isHexDigit a ∧ isHexDigit b ∧ isHexDigit c2 ∧ isHexDigit d then
              (strBody rest3).map (fun p => ('\\' :: 'u' :: a :: b :: c2 :: d :: p.1, p.2))
            else none
        | e :: rest2 =>
            if e = '"' ∨ e = '/' ∨ e = '\\' ∨ e = 'b' ∨ e = 'f' ∨ e = 'n' ∨ e = 'r' ∨ e = 't' then
              (strBody rest2).map (fun p => ('\\' :: e :: p.1, p.2))
            else none
        | [] => none
      else if strPlain c then (strBody rest).map (fun p => (c :: p.1, p.2))
      else none

/-- Greedy run of decimal digits. -/
def takeDigits : List Char → List Char × List Char
  | c :: cs =>
      if c.isDigit then
        let p := takeDigits cs
        (c :: p.1, p.2)
      else ([], c :: cs)
  | [] => ([], [])

/-- The integer part `(0|[1-9][0-9]*)` of the number regex. -/
def intPart : List Char → Option (List Char × List Char)
  | [] => none
  | c :: cs =>
      if c = '0' then some (['0'], cs)
      else if c.isDigit then
        let p := takeDigits cs
        some (c :: p.1, p.2)
      else none

/-- The fraction `(\.[0-9]+)?` when present. -/
def fracPart : List Char → Option (List Char × List Char)
  | [] => none
  | c :: cs =>
      if c = '.' then
        let p := takeDigits cs
        if p.1.isEmpty then none else some ('.' :: p.1, p.2)
      else none

/-- The exponent `([eE][+-]?[0-9]+)?` when present. -/
def expPart : List Char → Option (List Char × List Char)
  | [] => none
  | c :: cs =>
      if c = 'e' ∨ c = 'E' then
        match cs with
        | [] => none
        | s :: cs2 =>
            if s = '+' ∨ s = '-' then
              let p := takeDigits cs2
              if p.1.isEmpty then none else some (c :: s :: p.1, p.2)
            else
              let p := takeDigits (s :: cs2)
              if p.1.isEmpty then none else some (c :: p.1, p.2)
      else none

/-- The trailing `\b` of the number regex: every candidate match ends in a
digit, so the boundary holds exactly when the next character is not a word
character (or the input ends). -/
def bOk : List Char → Bool
  | [] => true
  | c :: _ => ¬ isWordChar c

/-- Match of the number regex
`-?\b(0|[1-9][0-9]*)(\.[0-9]+)?([eE][+-]?[0-9]+)?\b` at the current
position.  `prevW` says whether the character before the position is a word
character (for the leading `\b`).  All quantified sub-parts consume only
digits, so shortening any of them leaves the boundary between two digits
and fails; backtracking therefore only ever drops the fraction or exponent
wholesale, which gives the four candidate shapes tried in regex order. -/
def numCore (prevW : Bool) (cs : List Char) : Option (List Char × List Char) :=
  match cs with
  | [] => none
  | c :: cs1 =>
      if c = '-' then (intPart cs1).map (fun p => ('-' :: p.1, p.2))
      else if prevW then none else intPart (c :: cs1)

/-- Greedy backtracking over the optional fraction and exponent groups: the
match keeps the longest combination whose trailing `\b` holds.  Dropping the
exponent leaves the boundary before `e`/`E`, a word character, so only the
fraction-free shapes remain as fallbacks. -/
def numTail (ip r1 : List Char) : Option (List Char × List Char) :=
  match fracPart r1 with
  | some (fp, r2) =>
      (match expPart r2 with
       | some (ep, r3) =>
           if bOk r3 then some (ip ++ fp ++ ep, r3)
           else if bOk r2 then some (ip ++ fp, r2) else
             if bOk r1 then some (ip, r1) else none
       | none =>
           if bOk r2 then some (ip ++ fp, r2)
           else if bOk r1 then some (ip, r1) else none)
  | none =>
      match expPart r1 with
      | some (ep, r3) =>
          if bOk r3 then some (ip ++ ep, r3)
          else if bOk r1 then some (ip, r1) else none
      | none => if bOk r1 then some (ip, r1) else none

def matchNumber (prevW : Bool) (cs : List Char) : Option (List Char × List Char) :=
  match numCore prevW cs with
  | none => none
  | some (ip, r1) => numTail ip r1

/-- Does `pre` begin the list, and what follows it. -/
def stripLit : List Char → List Char → Option (List Char)
  | [], cs => some cs
  | p :: ps, c :: cs => if c = p then stripLit ps cs else none
  | _ :: _, [] => none

/-- One attempt of the token regex
`(?:false|true|null|[{}\[\]]|number|string)` at the current position.  The
alternatives have pairwise disjoint possible first characters, so the
regex's alternation order collapses to a dispatch on the first character.
Returns the token kind plus the number of characters consumed. -/
def tryTok (prevW : Bool) (cs : List Char) : Option (TokKind × Nat) :=
  match cs with
  | [] => none
  | c :: rest =>
      if c = '\x7b' then some (.obrace, 1)
      else if c = '\x7d' then some (.cbrace, 1)
      else if c = '[' then some (.obrack, 1)
      else if c = ']' then some (.cbrack, 1)
      else if c = 'f' then
        (stripLit "alse".toList rest).map (fun _ => (.litFalse, 5))
      else if c = 't' then
        (stripLit "rue".toList rest).map (fun _ => (.litTrue, 4))
      else if c = 'n' then
        (stripLit "ull".toList rest).map (fun _ => (.litNull, 4))
      else if c = '"' then
        (strBody rest).map (fun p => (TokKind.str p.1, p.1.length + 2))
      else if c = '-' ∨ c.isDigit then
        (matchNumber prevW cs).map (fun p => (TokKind.num p.1, p.1.length))
      else none

/-- The repeated-`exec` scan of `tokenize`: at each position try the token
regex; on a match emit the token and resume after it, else advance one
character.  `prev` is the character just before the current position (for
the `\b` of a number match).  `skip` counts characters still to be consumed
silently because they belong to the token just emitted, which keeps the
recursion structural on the character list. -/
def scanAux : Nat → Option Char → List Char → Nat → List Tok
  | _, _, [], _ => []
  | skip + 1, _, c :: rest, pos => scanAux skip (some c) rest (pos + 1)
  | 0, prev, c :: rest, pos =>
      match tryTok (match prev with | some p => isWordChar p | none => false) (c :: rest) with
      | some (k, n) => ⟨k, pos, n⟩ :: scanAux (n - 1) (some c) rest (pos + 1)
      | none => scanAux 0 (some c) rest (pos + 1)

/-- Model of `tokenize(jsonToken, json)`. -/
def tokenize (json : List Char) : List Tok :=
  scanAux 0 none json 0

/-!
### The value builder

The source builds values by mutating JavaScript containers shared through a
stack (`stack.unshift((cont[key || cont.length] = []))` installs the fresh
child in its parent at push time and mutates it in place afterwards).  A
pure model cannot alias, so each stack frame carries the partially built
container plus the slot of the parent it will be installed into; the
installation is performed when the frame is popped.  This is observationally
equal to the source: between a push and the matching pop every write goes to
the top frame, so the parent slot cannot be read or overwritten in between,
and every pushed container is fresh.
-/

/-- A container in construction (the mutable `{}` / `[]` of the source). -/
inductive PCont where
  | parr (elems : List JValue)
  | pobj (fields : List (String × JValue))

/-- Where a finished container goes in its parent, decided at push time by
`cont[key || cont.length]`:
* `rootSlot` — the bottom container, never installed anywhere;
* `arrIdx` — next index of a parent array (`cont.length` at push time);
* `arrGhost` — a string-keyed assignment on a parent **array** (a stale
  pending key): JavaScript stores it as a non-index property, invisible to
  the decoded JSON value, so installing is a no-op;
* `objKey k` — property `k` of a parent object (`k` is `"undefined"` when
  no key was pending, from `cont[undefined]`). -/
inductive Slot where
  | rootSlot
  | arrIdx
  | arrGhost
  | objKey (k : String)

structure Frame where
  cont : PCont
  slot : Slot

/-- State of the token loop: the stack of open containers (top first), the
pending key (`key` variable; `some ""` models the truthy `EMPTY_STRING`),
and the root container once it has been popped (the source's `result`
binding keeps referencing it; nothing can mutate it after the pop because
every write needs a non-empty stack). -/
structure BState where
  stack : List Frame
  key : Option String
  root? : Option JValue

/-- JavaScript property assignment on the field list of an object: an
existing key is overwritten in place (position kept), a new key is appended
in insertion order. -/
def setField : List (String × JValue) → String → JValue → List (String × JValue)
  | [], k, v => [(k, v)]
  | (k0, v0) :: fs, k, v =>
      if k0 = k then (k0, v) :: fs else (k0, v0) :: setField fs k v

/-- The assignment `cont[key || cont.length] = v` on the top frame. -/
def writeVal (f : Frame) (key : Option String) (v : JValue) : Frame :=
  match f.cont, key with
  | .parr es, none => ⟨.parr (es ++ [v]), f.slot⟩
  | .parr _, some _ => f
  | .pobj fs, none => ⟨.pobj (setField fs "undefined" v), f.slot⟩
  | .pobj fs, some k => ⟨.pobj (setField fs k v), f.slot⟩

/-- Close a finished container into a value. -/
def finalize : PCont → JValue
  | .parr es => .arr es
  | .pobj fs => .obj fs

/-- Install a popped frame into its parent frame. -/
def install (parent : Frame) (f : Frame) : Frame :=
  match f.slot with
  | .arrIdx =>
      (match parent.cont with
       | .parr es => ⟨.parr (es ++ [finalize f.cont]), parent.slot⟩
       | .pobj fs => ⟨.pobj fs, parent.slot⟩)
  | .arrGhost => parent
  | .objKey k =>
      (match parent.cont with
       | .pobj fs => ⟨.pobj (setField fs k (finalize f.cont)), parent.slot⟩
       | .parr es => ⟨.parr es, parent.slot⟩)
  | .rootSlot => parent

/-- `stack.shift()`: a no-op on an empty stack; popping the bottom frame
completes the root. -/
def popFrame (st : BState) : BState :=
  match st.stack with
  | [] => st
  | [f] => ⟨[], st.key, some (finalize f.cont)⟩
  | f :: g :: rest => ⟨install g f :: rest, st.key, st.root?⟩

/-- The slot for a fresh child container pushed onto frame `f` with pending
key `key`. -/
def pushSlot (f : Frame) (key : Option String) : Slot :=
  match f.cont, key with
  | .parr _, none => .arrIdx
  | .parr _, some _ => .arrGhost
  | .pobj _, k => .objKey (k.getD "undefined")

/-- One iteration of the token loop (`switch (tok.toString().charCodeAt(0))`).
`Sum.inr i` means the `cont == undefined` guard fired: `index` is set to the
token's start offset and the loop breaks with the state unchanged. -/
def stepTok (t : Tok) (st : BState) : BState ⊕ Nat :=
  match t.kind with
  | .num raw =>
      (match st.stack with
       | [] => .inr t.start
       | f :: rest => .inl ⟨writeVal f st.key (.num (String.mk raw)) :: rest, none, st.root?⟩)
  | .litFalse =>
      (match st.stack with
       | [] => .inr t.start
       | f :: rest => .inl ⟨writeVal f st.key (.bool false) :: rest, none, st.root?⟩)
  | .litTrue =>
      (match st.stack with
       | [] => .inr t.start
       | f :: rest => .inl ⟨writeVal f st.key (.bool true) :: rest, none, st.root?⟩)
  | .litNull =>
      (match st.stack with
       | [] => .inr t.start
       | f :: rest => .inl ⟨writeVal f st.key .null :: rest, none, st.root?⟩)
  | .str rawBody =>
      let content := String.mk (if rawBody.contains '\\' then unescape rawBody else rawBody)
      (match st.stack with
       | [] => .inr t.start
       | f :: rest =>
          match st.key with
          | none =>
              (match f.cont with
               | .parr _ => .inl ⟨writeVal f none (.str content) :: rest, none, st.root?⟩
               | .pobj _ => .inl ⟨f :: rest, some content, st.root?⟩)
          | some k => .inl ⟨writeVal f (some k) (.str content) :: rest, none, st.root?⟩)
  | .obrack =>
      (match st.stack with
       | [] => .inr t.start
       | f :: rest => .inl ⟨⟨.parr [], pushSlot f st.key⟩ :: f :: rest, none, st.root?⟩)
  | .obrace =>
      (match st.stack with
       | [] => .inr t.start
       | f :: rest => .inl ⟨⟨.pobj [], pushSlot f st.key⟩ :: f :: rest, none, st.root?⟩)
  | .cbrack => .inl (popFrame st)
  | .cbrace => .inl (popFrame st)

/-- The token loop: run until the tokens are exhausted or `index` is set
(`if (index >= 0) break`).  Returns the final state and the recorded
index, if any. -/
def runToks : List Tok → BState → BState × Option Nat
  | [], st => (st, none)
  | t :: ts, st =>
      match stepTok t st with
      | .inl st2 => runToks ts st2
      | .inr i => (st, some i)

/-!
### The reviver walk

Model of the inner `walk(holder, key)` of the source.  The holder is only
used to read `holder[key]` and as the reviver's `this`; the model passes
the value directly and gives the reviver only the key and the value (no
claim involves `this`).  The `value !== holder` self-reference guard is
vacuous on the trees the decoder builds (freshly parsed values are acyclic)
and is dropped.  Deleting an array element leaves a hole, observationally
`undefined` on every read, modeled by a `JValue.undef` element; `for...in`
skips holes, hence the `.undef` case of `walkElems`.  Object properties are
visited in stored order (JavaScript visits integer-like keys first; no
claim depends on the visiting order, and the reviver of the model is a pure
function, so the order cannot be observed). -/
mutual

def walk (r : String → JValue → JValue) : JValue → String → JValue
  | .arr es, key => r key (.arr (walkElems r es 0))
  | .obj fs, key => r key (.obj (walkFields r fs))
  | v, key => r key v

def walkElems (r : String → JValue → JValue) : List JValue → Nat → List JValue
  | [], _ => []
  | .undef :: vs, i => .undef :: walkElems r vs (i + 1)
  | v :: vs, i => walk r v (toString i) :: walkElems r vs (i + 1)

def walkFields (r : String → JValue → JValue) :
    List (String × JValue) → List (String × JValue)
  | [] => []
  | (k, v) :: fs =>
      match walk r v k with
      | .undef => walkFields r fs
      | v2 => (k, v2) :: walkFields r fs

end

/-- Result of `jsonRawDecode`.  `pair v idx` is the documented return value
`[v, idx]` (with `v = JValue.undef` for the literal `[undefined, 0]`).
`zero` is the bare number `0` actually produced by the statements
`return undefined, 0;`: the comma operator evaluates to its last operand,
so these returns yield the number `0`, not the documented pair. -/
inductive RawResult where
  | pair (v : JValue) (idx : Nat)
  | zero

/-- Root container chosen from the first token (`firstTokenCtors`); every
non-bracket first token selects the single-element wrapper array of the
`topLevelPrimitive` extension. -/
def rootCont : TokKind → PCont
  | .obrace => .pobj []
  | _ => .parr []

/-- The `topLevelPrimitive` flag. -/
def isPrimRoot : TokKind → Bool
  | .obrace => false
  | .obrack => false
  | _ => true

/-- Token list actually fed to the loop: `i` starts at
`1 - topLevelPrimitive`, so bracket roots skip their first token. -/
def runList : List Tok → List Tok
  | [] => []
  | t :: rest =>
      match t.kind with
      | .obrace => rest
      | .obrack => rest
      | _ => t :: rest

/-- Primitive-mode completion: succeeds iff exactly the wrapper remains
(`stack.length !== 1` fails), and `result = result[0]` unwraps it
(`undefined` on an empty wrapper; a `pobj` single frame cannot occur since
the wrapper is created as an array and writes preserve the constructor). -/
def primResult (st : BState) : Option JValue :=
  match st.stack with
  | [⟨.parr (v :: _), _⟩] => some v
  | [⟨.parr [], _⟩] => some .undef
  | [⟨.pobj _, _⟩] => some .undef
  | _ => none

/-- Bracket-mode completion: succeeds iff the stack is empty (`stack.length`
falsy), returning the completed root. -/
def contResult (st : BState) : Option JValue :=
  match st.stack with
  | [] => some (st.root?.getD .undef)
  | _ :: _ => none

/-- Model of `jsonRawDecode(json, opt_reviver)`. -/
def jsonRawDecode (json : List Char)
    (opt_reviver : Option (String → JValue → JValue)) : RawResult :=
  match tokenize json with
  | [] => .pair .undef 0
  | t0 :: rest =>
      let out := runToks (runList (t0 :: rest)) ⟨[⟨rootCont t0.kind, .rootSlot⟩], none, none⟩
      match (if isPrimRoot t0.kind then primResult out.1 else contResult out.1) with
      | none => .zero
      | some r =>
          let r2 :=
            match opt_reviver with
            | none => r
            | some rv => walk rv r ""
          .pair r2 (out.2.getD json.length)

/-- Model of the exported `jsonDecode(jsonString, jsonObjList = [])`.  The
source recursion has no termination guarantee, so the model takes explicit
fuel; `none` means the recursion did not finish within `fuel` calls (so the
source diverges on that input when no fuel suffices). -/
def jsonDecode : Nat → List Char → List JValue → Option (List JValue)
  | 0, _, _ => none
  | fuel + 1, jsonString, jsonObjList =>
      match jsonRawDecode jsonString none with
      | .zero => some jsonObjList
      | .pair jsonObj nextIdx =>
          let nextJsonString := jsonString.drop nextIdx
          let nextJsonObjList := jsonObjList ++ [jsonObj]
          if nextJsonString.isEmpty then some nextJsonObjList
          else jsonDecode fuel nextJsonString nextJsonObjList

/-!
### Extracted characterization of the returned offset

The `index` recorded by the token loop depends only on the kinds and start
offsets of the tokens, not on the values built: pushes happen exactly at
open tokens seen with a non-empty stack, pops exactly at close tokens, and
`index` is set exactly at the first open or value token seen with an empty
stack.  `stopIndex d toks` replays that stack-depth automaton from depth
`d`; `runList` drops the first token when it opened the root (the loop
starts at `i = 1 - topLevelPrimitive`). -/
def stopIndex : Nat → List Tok → Option Nat
  | _, [] => none
  | d, t :: ts =>
      match t.kind with
      | .obrace => if d = 0 then some t.start else stopIndex (d + 1) ts
      | .obrack => if d = 0 then some t.start else stopIndex (d + 1) ts
      | .cbrace => stopIndex (d - 1) ts
      | .cbrack => stopIndex (d - 1) ts
      | _ => if d = 0 then some t.start else stopIndex d ts

/-- The offset a successful `jsonRawDecode` reports, computed from the
token list alone: the start offset of the first unconsumed token, or the
input length when every token was consumed. -/
def specIndex (json : List Char) : Nat :=
  (stopIndex 1 (runList (tokenize json))).getD json.length

/-!
### Canonical document rendering

To quantify over "valid JSON documents" the spec-side grammar is embedded
as the canonical (whitespace-free) rendering of a `JValue`, with the
wellformedness predicate `JWF` (no `undef`, number payloads matching the
JSON number grammar, object keys unique). -/

/-- Lowercase hexadecimal digit, as produced by `JSON.stringify`. -/
def hexDig (n : Nat) : Char :=
  if n < 10 then Char.ofNat ('0'.toNat + n) else Char.ofNat ('a'.toNat + n - 10)

/-- Canonical escaping of one string character (the escapes JSON.parse
accepts and JSON.stringify produces: the named escapes plus `\u00XX` for
the remaining control characters). -/
def escChar (c : Char) : List Char :=
  if c = '"' then ['\\', '"']
  else if c = '\\' then ['\\', '\\']
  else if c.toNat = 8 then ['\\', 'b']
  else if c.toNat = 12 then ['\\', 'f']
  else if c = '\n' then ['\\', 'n']
  else if c.toNat = 13 then ['\\', 'r']
  else if c = '\t' then ['\\', 't']
  else if c.toNat < 32 then ['\\', 'u', '0', '0', hexDig (c.toNat / 16), hexDig (c.toNat % 16)]
  else [c]

def escStr : List Char → List Char
  | [] => []
  | c :: cs => escChar c ++ escStr cs

/-- Does the whole payload match the JSON number grammar
`-?(0|[1-9][0-9]*)(\.[0-9]+)?([eE][+-]?[0-9]+)?` exactly. -/
def tailWF (r1 : List Char) : Bool :=
  let r2 := match fracPart r1 with
    | some (_, x) => x
    | none => r1
  let r3 := match expPart r2 with
    | some (_, x) => x
    | none => r2
  r3.isEmpty

def NumWF (raw : List Char) : Bool :=
  let r0 : List Char := match raw with
    | c :: r => if c = '-' then r else c :: r
    | [] => []
  match intPart r0 with
  | none => false
  | some (_, r1) => tailWF r1

def hasKey : List (String × JValue) → String → Bool
  | [], _ => false
  | (k0, _) :: fs, k => k0 = k || hasKey fs k

mutual

def JWF : JValue → Bool
  | .undef => false
  | .null => true
  | .bool _ => true
  | .num raw => NumWF raw.toList
  | .str _ => true
  | .arr es => JWFElems es
  | .obj fs => JWFFields fs

def JWFElems : List JValue → Bool
  | [] => true
  | v :: vs => JWF v && JWFElems vs

def JWFFields : List (String × JValue) → Bool
  | [] => true
  | (k, v) :: fs => ¬ hasKey fs k && JWF v && JWFFields fs

end

mutual

def renderDoc : JValue → List Char
  | .undef => []
  | .null => 'n' :: 'u' :: 'l' :: 'l' :: []
  | .bool true => 't' :: 'r' :: 'u' :: 'e' :: []
  | .bool false => 'f' :: 'a' :: 'l' :: 's' :: 'e' :: []
  | .num raw => raw.toList
  | .str s => '"' :: (escStr s.toList ++ ['"'])
  | .arr es => '[' :: (renderElems es ++ [']'])
  | .obj fs => '\x7b' :: (renderFields fs ++ ['\x7d'])

def renderElems : List JValue → List Char
  | [] => []
  | [v] => renderDoc v
  | v :: vs => renderDoc v ++ ',' :: renderElems vs

def renderFields : List (String × JValue) → List Char
  | [] => []
  | [(k, v)] => '"' :: (escStr k.toList ++ '"' :: ':' :: renderDoc v)
  | (k, v) :: fs =>
      ('"' :: (escStr k.toList ++ '"' :: ':' :: renderDoc v)) ++ ',' :: renderFields fs

end

/-!
### The decycle component

`decycle` works on JavaScript object graphs, where composites have
identity and may be shared or cyclic.  The heap is made explicit: a
`Graph` is a store of numbered nodes, `GVal.ref a` is a reference to node
`a` (an object or array), and `GVal.prim` is a primitive leaf (the "weird
builtin" leaves — boxed scalars, dates, regexps — are opaque leaves exactly
like primitives and need no separate constructor for any claim).  The
WeakMap `objects` becomes an association list from address to first-seen
path, and the unbounded graph recursion of `derez` takes explicit fuel
(`none` = the recursion did not finish within `fuel` nested calls). -/

abbrev Addr := Nat

inductive GVal where
  | prim (v : JValue)
  | ref (a : Addr)

inductive GNode where
  | garr (elems : List GVal)
  | gobj (fields : List (String × GVal))

structure Graph where
  nodes : List GNode

/-- `objects.get(value)`. -/
def lookupMemo : List (Addr × String) → Addr → Option String
  | [], _ => none
  | (a0, p) :: ms, a => if a0 = a then some p else lookupMemo ms a

/-- `JSON.stringify(name)` on a property name, used to build paths. -/
def jsQuote (s : String) : String :=
  String.mk ('"' :: (escStr s.toList ++ ['"']))

/-- `if (replacer !== undefined) value = replacer(value);` -/
def applyRp (replacer : Option (GVal → GVal)) (v : GVal) : GVal :=
  match replacer with
  | none => v
  | some rp => rp v

mutual

def derez (g : Graph) (replacer : Option (GVal → GVal)) :
    Nat → List (Addr × String) → GVal → String →
    Option (JValue × List (Addr × String))
  | 0, _, _, _ => none
  | fuel + 1, memo, value0, path =>
      -- the replacer runs first, before the memo lookup
      match applyRp replacer value0 with
      | .prim p => some (p, memo)
      | .ref a =>
          match lookupMemo memo a with
          | some old => some (.obj [("$ref", .str old)], memo)
          | none =>
              let memo2 := memo ++ [(a, path)]
              match g.nodes[a]? with
              | none => none
              | some (.garr es) =>
                  (derezElems g replacer fuel memo2 es path 0).map
                    (fun p => (.arr p.1, p.2))
              | some (.gobj fs) =>
                  (derezFields g replacer fuel memo2 fs path).map
                    (fun p => (.obj p.1, p.2))
termination_by structural fuel => fuel

def derezElems (g : Graph) (replacer : Option (GVal → GVal)) :
    Nat → List (Addr × String) → List GVal → String → Nat →
    Option (List JValue × List (Addr × String))
  | 0, _, _, _, _ => none
  | _ + 1, memo, [], _, _ => some ([], memo)
  | fuel + 1, memo, v :: vs, path, i =>
      match derez g replacer fuel memo v (path ++ "[" ++ toString i ++ "]") with
      | none => none
      | some (t, memo2) =>
          match derezElems g replacer fuel memo2 vs path (i + 1) with
          | none => none
          | some (ts, memo3) => some (t :: ts, memo3)
termination_by structural fuel => fuel

def derezFields (g : Graph) (replacer : Option (GVal → GVal)) :
    Nat → List (Addr × String) → List (String × GVal) → String →
    Option (List (String × JValue) × List (Addr × String))
  | 0, _, _, _ => none
  | _ + 1, memo, [], _ => some ([], memo)
  | fuel + 1, memo, (k, v) :: fs, path =>
      match derez g replacer fuel memo v (path ++ "[" ++ jsQuote k ++ "]") with
      | none => none
      | some (t, memo2) =>
          match derezFields g replacer fuel memo2 fs path with
          | none => none
          | some (ts, memo3) => some ((k, t) :: ts, memo3)
termination_by structural fuel => fuel

end

/-- Model of the exported `decycle(object, replacer)`: the immediate call
`derez(object, "$")` with a fresh memo.  The graph and the fuel are
modeling artifacts: the graph is the heap the JavaScript values live in,
and `none` means the recursion did not finish within `fuel` nested
`derez` calls. -/
def decycle (g : Graph) (object : GVal) (replacer : Option (GVal → GVal))
    (fuel : Nat) : Option JValue :=
  (derez g replacer fuel [] object "$").map Prod.fst

/-!
## Theorems

### The driver loops forever when `jsonRawDecode` consumes nothing

`jsonRawDecode` reports "not enough input" in two different shapes: the
documented pair `[undefined, 0]` when the buffer holds no complete token at
all, and the bare `0` (comma-operator slip) otherwise.  `jsonDecode` only
recognizes the second (`out === 0`); on the first it appends `undefined` to
the accumulator and recurses on the unchanged buffer, forever. -/

theorem jsonDecode_stuck (s : List Char) (v : JValue)
    (h : jsonRawDecode s none = .pair v 0) (hne : s ≠ []) :
    ∀ fuel acc, jsonDecode fuel s acc = none := by
  intro fuel
  induction fuel with
  | zero => intro acc; rfl
  | succ n ih =>
      intro acc
      show (match jsonRawDecode s none with
            | .zero => some acc
            | .pair jsonObj nextIdx =>
                if (s.drop nextIdx).isEmpty then some (acc ++ [jsonObj])
                else jsonDecode n (s.drop nextIdx) (acc ++ [jsonObj])) = none
      rw [h]
      simp only [List.drop_zero]
      cases s with
      | nil => exact absurd rfl hne
      | cons c cs => exact ih (acc ++ [v])

/-- C1: for a valid document split into chunks, the streaming driver must
report "incomplete" (accumulator unchanged, nothing consumed) on every
strict prefix and yield the document exactly once on the final call.  The
code violates this: on the strict prefix `"tru"` of the valid document
`"true"`, `jsonRawDecode` signals incompleteness with the documented
`[undefined, 0]`, but `jsonDecode` does not recognize that shape and
recurses forever on the unchanged buffer (no fuel suffices), instead of
returning the accumulator unchanged; moreover the strict prefix `"1"` of
the valid document `"12"` is already decoded as a complete value rather
than reported incomplete. -/
theorem claim_C1 :
    (∀ fuel acc, jsonDecode fuel "tru".toList acc = none) ∧
    jsonRawDecode "tru".toList none = .pair .undef 0 ∧
    jsonDecode 9 "1".toList [] = some [.num "1"] :=
  ⟨jsonDecode_stuck _ _ rfl (by decide), rfl, rfl⟩

/-- C3: for an input holding only part of one JSON value, `jsonRawDecode`
must return the pair `(absent value, 0)` and `jsonDecode` must return its
accumulator unchanged.  The code violates the first half whenever the
partial input contains at least one complete token: `return undefined, 0`
is a comma-operator expression evaluating to the bare number `0`, e.g. on
`"{"`, not the documented pair (on that shape `jsonDecode` does return the
accumulator unchanged, because it tests `out === 0`).  It violates the
second half when the partial input has no complete token: on `"\"a"`,
`jsonRawDecode` returns the pair `[undefined, 0]` and `jsonDecode`
recurses forever instead of returning the accumulator. -/
theorem claim_C3 :
    jsonRawDecode "\x7b".toList none = .zero ∧
    (∀ v i, RawResult.zero ≠ RawResult.pair v i) ∧
    jsonDecode 7 "\x7b".toList [] = some [] ∧
    jsonRawDecode "\x22a".toList none = .pair .undef 0 ∧
    (∀ fuel acc, jsonDecode fuel "\x22a".toList acc = none) :=
  ⟨rfl, fun _ _ h => RawResult.noConfusion h, rfl, rfl,
    jsonDecode_stuck _ _ rfl (by decide)⟩

/-- C4: `jsonDecode` must terminate on every input, including malformed
input and input with no value tokens at all.  The code violates this: on
the token-free input `"x"`, `jsonRawDecode` returns `[undefined, 0]`, the
driver appends `undefined` to the accumulator and recurses on the same
non-empty buffer, so no fuel suffices — the recursion never terminates. -/
theorem claim_C4 :
    (∀ fuel acc, jsonDecode fuel "x".toList acc = none) ∧
    jsonRawDecode "x".toList none = .pair .undef 0 :=
  ⟨jsonDecode_stuck _ _ rfl (by decide), rfl⟩

/-!
### The returned offset (C6)

The `index` the loop records depends only on token kinds, starts, and the
stack depth: `runToks_stopIndex` couples the loop with the depth automaton
`stopIndex`. -/

theorem runToks_stopIndex :
    ∀ (toks : List Tok) (st : BState),
      (runToks toks st).2 = stopIndex st.stack.length toks := by
  intro toks
  induction toks with
  | nil => intro st; rfl
  | cons t ts ih =>
      intro st
      obtain ⟨stack, key, root?⟩ := st
      obtain ⟨kind, start, len⟩ := t
      cases kind with
      | num raw =>
          cases stack with
          | nil => simp [runToks, stepTok, stopIndex]
          | cons f rest => simpa [runToks, stepTok, stopIndex] using ih _
      | litTrue =>
          cases stack with
          | nil => simp [runToks, stepTok, stopIndex]
          | cons f rest => simpa [runToks, stepTok, stopIndex] using ih _
      | litFalse =>
          cases stack with
          | nil => simp [runToks, stepTok, stopIndex]
          | cons f rest => simpa [runToks, stepTok, stopIndex] using ih _
      | litNull =>
          cases stack with
          | nil => simp [runToks, stepTok, stopIndex]
          | cons f rest => simpa [runToks, stepTok, stopIndex] using ih _
      | str rawBody =>
          cases stack with
          | nil => simp [runToks, stepTok, stopIndex]
          | cons f rest =>
              cases key with
              | some k => simpa [runToks, stepTok, stopIndex] using ih _
              | none =>
                  obtain ⟨cont, slot⟩ := f
                  cases cont with
                  | parr es => simpa [runToks, stepTok, stopIndex] using ih _
                  | pobj fs => simpa [runToks, stepTok, stopIndex] using ih _
      | obrack =>
          cases stack with
          | nil => simp [runToks, stepTok, stopIndex]
          | cons f rest => simpa [runToks, stepTok, stopIndex] using ih _
      | obrace =>
          cases stack with
          | nil => simp [runToks, stepTok, stopIndex]
          | cons f rest => simpa [runToks, stepTok, stopIndex] using ih _
      | cbrack =>
          cases stack with
          | nil => simpa [runToks, stepTok, stopIndex, popFrame] using ih _
          | cons f rest =>
              cases rest with
              | nil => simpa [runToks, stepTok, stopIndex, popFrame] using ih _
              | cons g rest2 => simpa [runToks, stepTok, stopIndex, popFrame] using ih _
      | cbrace =>
          cases stack with
          | nil => simpa [runToks, stepTok, stopIndex, popFrame] using ih _
          | cons f rest =>
              cases rest with
              | nil => simpa [runToks, stepTok, stopIndex, popFrame] using ih _
              | cons g rest2 => simpa [runToks, stepTok, stopIndex, popFrame] using ih _

/-- C6 counterexample: on the input `"{} 5"` (with its whitespace) the
claim says the returned offset is the end offset of the close token that
terminated the value, i.e. `1 + 1 = 2`; the code instead records the start
offset of the next token and returns `3`. -/
theorem claim_C6_counterexample :
    jsonRawDecode "\x7b\x7d 5".toList none = .pair (.obj []) 3 ∧
    (tokenize "\x7b\x7d 5".toList).map (fun t => (t.start, t.len)) =
      [(0, 1), (1, 1), (3, 1)] ∧
    (3 : Nat) ≠ 1 + 1 :=
  ⟨rfl, rfl, by decide⟩

/-- C6 (amended): on every input on which `jsonRawDecode` successfully
returns a value, the returned consumed offset is the start offset of the
first unconsumed token — the first open or value token encountered after
the top-level value completed, close tokens there being silently consumed
— or the input length when all tokens were consumed. -/
theorem claim_C6 (json : List Char) (rv : Option (String → JValue → JValue))
    (v : JValue) (idx : Nat) (h : jsonRawDecode json rv = .pair v idx)
    (hne : tokenize json ≠ []) : idx = specIndex json := by
  unfold jsonRawDecode at h
  cases htk : tokenize json with
  | nil => exact absurd htk hne
  | cons t0 rest =>
      rw [htk] at h
      simp only at h
      cases hres : (if isPrimRoot t0.kind then
          primResult (runToks (runList (t0 :: rest)) ⟨[⟨rootCont t0.kind, .rootSlot⟩], none, none⟩).1
        else
          contResult (runToks (runList (t0 :: rest)) ⟨[⟨rootCont t0.kind, .rootSlot⟩], none, none⟩).1) with
      | none => rw [hres] at h; exact absurd h (fun hh => RawResult.noConfusion hh)
      | some r =>
          rw [hres] at h
          have hidx : idx =
              (runToks (runList (t0 :: rest))
                ⟨[⟨rootCont t0.kind, .rootSlot⟩], none, none⟩).2.getD json.length := by
            cases h; rfl
          rw [hidx, runToks_stopIndex]
          unfold specIndex
          rw [htk]
          rfl

/-- Witness for C6 at the concrete input `"{}"`. -/
theorem claim_C6_witness : (2 : Nat) = specIndex "\x7b\x7d".toList :=
  claim_C6 "\x7b\x7d".toList none (.obj []) 2 rfl (by decide)

/-!
### Decycle: wellformedness and the memo invariants -/

/-- A graph value whose reference, if any, points into the store.  (In
JavaScript every object reference is to a live object; the explicit store
makes this a side condition.) -/
def refOK (g : Graph) : GVal → Bool
  | .prim _ => true
  | .ref a => a < g.nodes.length

def nodeOK (g : Graph) : GNode → Bool
  | .garr es => es.all (fun v => refOK g v)
  | .gobj fs => fs.all (fun p => refOK g p.2)

def GraphWF (g : Graph) : Bool :=
  g.nodes.all (fun n => nodeOK g n)

/-- A replacer keeps references inside the store (in JavaScript a replacer
can only return live values). -/
def ReplOK (g : Graph) : Option (GVal → GVal) → Prop
  | none => True
  | some f => ∀ v, refOK g (f v) = true

/-- Addresses of the store not yet recorded in the memo. -/
def unvisited (g : Graph) (memo : List (Addr × String)) : Finset Nat :=
  (Finset.range g.nodes.length).filter (fun a => lookupMemo memo a = none)

theorem lookupMemo_append_some (m1 m2 : List (Addr × String)) (a : Addr)
    (p : String) (h : lookupMemo m1 a = some p) :
    lookupMemo (m1 ++ m2) a = some p := by
  induction m1 with
  | nil => exact absurd h (by simp [lookupMemo])
  | cons e m ih =>
      obtain ⟨a0, q⟩ := e
      by_cases ha : a0 = a
      · simpa [lookupMemo, ha] using (by simpa [lookupMemo, ha] using h)
      · simp only [lookupMemo, List.cons_append, if_neg ha] at h ⊢
        exact ih h

theorem lookupMemo_append_none (m1 m2 : List (Addr × String)) (a : Addr)
    (h : lookupMemo m1 a = none) :
    lookupMemo (m1 ++ m2) a = lookupMemo m2 a := by
  induction m1 with
  | nil => rfl
  | cons e m ih =>
      obtain ⟨a0, q⟩ := e
      by_cases ha : a0 = a
      · simp [lookupMemo, ha] at h
      · simp only [lookupMemo, List.cons_append, if_neg ha] at h ⊢
        exact ih h

theorem lookupMemo_none_iff (memo : List (Addr × String)) (a : Addr) :
    lookupMemo memo a = none ↔ a ∉ memo.map Prod.fst := by
  induction memo with
  | nil => simp [lookupMemo]
  | cons e m ih =>
      obtain ⟨a0, q⟩ := e
      by_cases ha : a0 = a
      · simp [lookupMemo, ha]
      · simp [lookupMemo, ha, ih, Ne.symm ha]

theorem unvisited_append_subset (g : Graph) (memo ext : List (Addr × String)) :
    unvisited g (memo ++ ext) ⊆ unvisited g memo := by
  intro a ha
  simp only [unvisited, Finset.mem_filter, Finset.mem_range] at ha ⊢
  refine ⟨ha.1, ?_⟩
  cases hm : lookupMemo memo a with
  | none => rfl
  | some p => rw [lookupMemo_append_some memo ext a p hm] at ha; exact absurd ha.2 (by simp)

theorem unvisited_insert_ssubset (g : Graph) (memo : List (Addr × String))
    (a : Addr) (path : String) (ha : a < g.nodes.length)
    (hnone : lookupMemo memo a = none) :
    unvisited g (memo ++ [(a, path)]) ⊂ unvisited g memo := by
  refine Finset.ssubset_iff_of_subset (unvisited_append_subset g memo [(a, path)]) |>.2 ?_
  refine ⟨a, ?_, ?_⟩
  · simp [unvisited, Finset.mem_filter, Finset.mem_range, ha, hnone]
  · simp [unvisited, Finset.mem_filter, Finset.mem_range,
      lookupMemo_append_none memo [(a, path)] a hnone, lookupMemo]

/-- Any successful `derez` call only appends to the memo. -/
theorem derez_extends_all (g : Graph) (rp : Option (GVal → GVal)) :
    ∀ fuel : Nat,
      (∀ memo v path t m2, derez g rp fuel memo v path = some (t, m2) →
        ∃ ext, m2 = memo ++ ext) ∧
      (∀ memo vs path i ts m2, derezElems g rp fuel memo vs path i = some (ts, m2) →
        ∃ ext, m2 = memo ++ ext) ∧
      (∀ memo fs path ts m2, derezFields g rp fuel memo fs path = some (ts, m2) →
        ∃ ext, m2 = memo ++ ext) := by
  intro fuel
  induction fuel with
  | zero =>
      exact ⟨fun memo v path t m2 h => absurd h (by simp [derez]),
        fun memo vs path i ts m2 h => absurd h (by simp [derezElems]),
        fun memo fs path ts m2 h => absurd h (by simp [derezFields])⟩
  | succ n ih =>
      obtain ⟨ihV, ihE, ihF⟩ := ih
      refine ⟨?_, ?_, ?_⟩
      · intro memo v path t m2 h
        simp only [derez] at h
        split at h
        · exact ⟨[], by cases h; simp⟩
        · split at h
          · exact ⟨[], by cases h; simp⟩
          · split at h
            · exact absurd h (by simp)
            · simp only [Option.map_eq_some'] at h
              obtain ⟨⟨ts, m3⟩, hrec, hout⟩ := h
              obtain ⟨ext, hext⟩ := ihE _ _ _ _ _ _ hrec
              cases hout
              exact ⟨_, by rw [hext, List.append_assoc]⟩
            · simp only [Option.map_eq_some'] at h
              obtain ⟨⟨ts, m3⟩, hrec, hout⟩ := h
              obtain ⟨ext, hext⟩ := ihF _ _ _ _ _ hrec
              cases hout
              exact ⟨_, by rw [hext, List.append_assoc]⟩
      · intro memo vs path i ts m2 h
        cases vs with
        | nil => refine ⟨[], ?_⟩; simp only [derezElems] at h; cases h; simp
        | cons v vs2 =>
            simp only [derezElems] at h
            split at h
            · exact absurd h (by simp)
            · rename_i out1 t1 mA h1
              split at h
              · exact absurd h (by simp)
              · rename_i out2 ts2 mB h2
                obtain ⟨e1, he1⟩ := ihV _ _ _ _ _ h1
                obtain ⟨e2, he2⟩ := ihE _ _ _ _ _ _ h2
                cases h
                exact ⟨_, by rw [he2, he1, List.append_assoc]⟩
      · intro memo fs path ts m2 h
        cases fs with
        | nil => refine ⟨[], ?_⟩; simp only [derezFields] at h; cases h; simp
        | cons kv fs2 =>
            obtain ⟨k, v⟩ := kv
            simp only [derezFields] at h
            split at h
            · exact absurd h (by simp)
            · rename_i out1 t1 mA h1
              split at h
              · exact absurd h (by simp)
              · rename_i out2 ts2 mB h2
                obtain ⟨e1, he1⟩ := ihV _ _ _ _ _ h1
                obtain ⟨e2, he2⟩ := ihF _ _ _ _ _ h2
                cases h
                exact ⟨_, by rw [he2, he1, List.append_assoc]⟩

/-- A successful `derez` call still succeeds, with the same output, at any
larger fuel. -/
theorem derez_mono_all (g : Graph) (rp : Option (GVal → GVal)) :
    ∀ fuel : Nat,
      (∀ memo v path out, derez g rp fuel memo v path = some out →
        derez g rp (fuel + 1) memo v path = some out) ∧
      (∀ memo vs path i out, derezElems g rp fuel memo vs path i = some out →
        derezElems g rp (fuel + 1) memo vs path i = some out) ∧
      (∀ memo fs path out, derezFields g rp fuel memo fs path = some out →
        derezFields g rp (fuel + 1) memo fs path = some out) := by
  intro fuel
  induction fuel with
  | zero =>
      exact ⟨fun memo v path out h => absurd h (by simp [derez]),
        fun memo vs path i out h => absurd h (by simp [derezElems]),
        fun memo fs path out h => absurd h (by simp [derezFields])⟩
  | succ n ih =>
      obtain ⟨ihV, ihE, ihF⟩ := ih
      refine ⟨?_, ?_, ?_⟩
      · intro memo v path out h
        simp only [derez] at h ⊢
        revert h
        cases hv : applyRp rp v with
        | prim p => dsimp only; exact fun h => h
        | ref a =>
            dsimp only
            cases hl : lookupMemo memo a with
            | some old => dsimp only; exact fun h => h
            | none =>
                dsimp only
                cases hn : g.nodes[a]? with
                | none => intro h; exact absurd h (by simp)
                | some node =>
                    cases node with
                    | garr es =>
                        dsimp only
                        intro h
                        simp only [Option.map_eq_some'] at h ⊢
                        obtain ⟨p1, hrec, hout⟩ := h
                        exact ⟨p1, ihE _ _ _ _ _ hrec, hout⟩
                    | gobj fs =>
                        dsimp only
                        intro h
                        simp only [Option.map_eq_some'] at h ⊢
                        obtain ⟨p1, hrec, hout⟩ := h
                        exact ⟨p1, ihF _ _ _ _ hrec, hout⟩
      · intro memo vs path i out h
        cases vs with
        | nil => simp only [derezElems] at h ⊢; exact h
        | cons v vs2 =>
            simp only [derezElems] at h ⊢
            revert h
            cases h1 : derez g rp n memo v (path ++ "[" ++ toString i ++ "]") with
            | none => intro h; simp at h
            | some out1 =>
                obtain ⟨t1, mA⟩ := out1
                dsimp only
                rw [ihV _ _ _ _ h1]
                dsimp only
                cases h2 : derezElems g rp n mA vs2 path (i + 1) with
                | none => intro h; simp at h
                | some out2 =>
                    obtain ⟨ts2, m3⟩ := out2
                    rw [ihE _ _ _ _ _ h2]
                    dsimp only
                    exact fun h => h
      · intro memo fs path out h
        cases fs with
        | nil => simp only [derezFields] at h ⊢; exact h
        | cons kv fs2 =>
            obtain ⟨k, v⟩ := kv
            simp only [derezFields] at h ⊢
            revert h
            cases h1 : derez g rp n memo v (path ++ "[" ++ jsQuote k ++ "]") with
            | none => intro h; simp at h
            | some out1 =>
                obtain ⟨t1, mA⟩ := out1
                dsimp only
                rw [ihV _ _ _ _ h1]
                dsimp only
                cases h2 : derezFields g rp n mA fs2 path with
                | none => intro h; simp at h
                | some out2 =>
                    obtain ⟨ts2, m3⟩ := out2
                    rw [ihF _ _ _ _ h2]
                    dsimp only
                    exact fun h => h

theorem derez_mono_le (g : Graph) (rp : Option (GVal → GVal))
    (f1 f2 : Nat) (hle : f1 ≤ f2) (memo : List (Addr × String)) (v : GVal)
    (path : String) (out : JValue × List (Addr × String))
    (h : derez g rp f1 memo v path = some out) :
    derez g rp f2 memo v path = some out := by
  induction f2, hle using Nat.le_induction with
  | base => exact h
  | succ m hm ih => exact (derez_mono_all g rp m).1 _ _ _ _ ih

theorem derezElems_mono_le (g : Graph) (rp : Option (GVal → GVal))
    (f1 f2 : Nat) (hle : f1 ≤ f2) (memo : List (Addr × String)) (vs : List GVal)
    (path : String) (i : Nat) (out : List JValue × List (Addr × String))
    (h : derezElems g rp f1 memo vs path i = some out) :
    derezElems g rp f2 memo vs path i = some out := by
  induction f2, hle using Nat.le_induction with
  | base => exact h
  | succ m hm ih => exact (derez_mono_all g rp m).2.1 _ _ _ _ _ ih

theorem derezFields_mono_le (g : Graph) (rp : Option (GVal → GVal))
    (f1 f2 : Nat) (hle : f1 ≤ f2) (memo : List (Addr × String))
    (fs : List (String × GVal)) (path : String)
    (out : List (String × JValue) × List (Addr × String))
    (h : derezFields g rp f1 memo fs path = some out) :
    derezFields g rp f2 memo fs path = some out := by
  induction f2, hle using Nat.le_induction with
  | base => exact h
  | succ m hm ih => exact (derez_mono_all g rp m).2.2 _ _ _ _ ih

theorem derezElems_total_of (g : Graph) (rp : Option (GVal → GVal)) (B : Nat)
    (hVal : ∀ memo, (unvisited g memo).card ≤ B →
      ∀ v path, refOK g v = true → ∃ fuel out, derez g rp fuel memo v path = some out) :
    ∀ (vs : List GVal) (memo : List (Addr × String)) (path : String) (i : Nat),
      (unvisited g memo).card ≤ B → (∀ w ∈ vs, refOK g w = true) →
      ∃ fuel out, derezElems g rp fuel memo vs path i = some out := by
  intro vs
  induction vs with
  | nil => intro memo path i hc hw; exact ⟨1, ([], memo), by simp [derezElems]⟩
  | cons w ws ihw =>
      intro memo path i hc hw
      obtain ⟨f1, ⟨t1, m1⟩, h1⟩ :=
        hVal memo hc w (path ++ "[" ++ toString i ++ "]") (hw w (by simp))
      obtain ⟨ext, hext⟩ := ((derez_extends_all g rp f1).1 _ _ _ _ _ h1)
      have hc1 : (unvisited g m1).card ≤ B := by
        rw [hext]
        exact le_trans (Finset.card_le_card (unvisited_append_subset g memo ext)) hc
      obtain ⟨f2, ⟨ts, m2⟩, h2⟩ :=
        ihw m1 path (i + 1) hc1 (fun x hx => hw x (by simp [hx]))
      refine ⟨max f1 f2 + 1, ⟨t1 :: ts, m2⟩, ?_⟩
      have h1b := derez_mono_le g rp f1 (max f1 f2) (le_max_left _ _) _ _ _ _ h1
      have h2b := derezElems_mono_le g rp f2 (max f1 f2) (le_max_right _ _) _ _ _ _ _ h2
      simp [derezElems, h1b, h2b]

theorem derezFields_total_of (g : Graph) (rp : Option (GVal → GVal)) (B : Nat)
    (hVal : ∀ memo, (unvisited g memo).card ≤ B →
      ∀ v path, refOK g v = true → ∃ fuel out, derez g rp fuel memo v path = some out) :
    ∀ (fs : List (String × GVal)) (memo : List (Addr × String)) (path : String),
      (unvisited g memo).card ≤ B → (∀ p ∈ fs, refOK g p.2 = true) →
      ∃ fuel out, derezFields g rp fuel memo fs path = some out := by
  intro fs
  induction fs with
  | nil => intro memo path hc hw; exact ⟨1, ([], memo), by simp [derezFields]⟩
  | cons kv fss ihw =>
      obtain ⟨k, w⟩ := kv
      intro memo path hc hw
      obtain ⟨f1, ⟨t1, m1⟩, h1⟩ :=
        hVal memo hc w (path ++ "[" ++ jsQuote k ++ "]") (hw (k, w) (by simp))
      obtain ⟨ext, hext⟩ := ((derez_extends_all g rp f1).1 _ _ _ _ _ h1)
      have hc1 : (unvisited g m1).card ≤ B := by
        rw [hext]
        exact le_trans (Finset.card_le_card (unvisited_append_subset g memo ext)) hc
      obtain ⟨f2, ⟨ts, m2⟩, h2⟩ := ihw m1 path hc1 (fun x hx => hw x (by simp [hx]))
      refine ⟨max f1 f2 + 1, ⟨(k, t1) :: ts, m2⟩, ?_⟩
      have h1b := derez_mono_le g rp f1 (max f1 f2) (le_max_left _ _) _ _ _ _ h1
      have h2b := derezFields_mono_le g rp f2 (max f1 f2) (le_max_right _ _) _ _ _ _ h2
      simp [derezFields, h1b, h2b]

/-- Termination of `derez` on every wellformed graph — cyclic or not: each
nested call either resolves immediately (leaf or RefMarker) or moves an
address from the unvisited set into the memo, so some finite fuel always
suffices. -/
theorem derez_total (g : Graph) (rp : Option (GVal → GVal))
    (hg : GraphWF g = true) (hrp : ReplOK g rp) :
    ∀ (u : Nat) (memo : List (Addr × String)), (unvisited g memo).card ≤ u →
      ∀ v path, refOK g v = true →
        ∃ fuel out, derez g rp fuel memo v path = some out := by
  intro u
  induction u using Nat.strong_induction_on with
  | _ u ih =>
      intro memo hcard v path hv
      have hval : refOK g (applyRp rp v) = true := by
        cases rp with
        | none => exact hv
        | some f => exact hrp v
      cases hAv : applyRp rp v with
      | prim p => exact ⟨1, (p, memo), by simp [derez, hAv]⟩
      | ref a =>
          cases hl : lookupMemo memo a with
          | some old =>
              exact ⟨1, (.obj [("$ref", .str old)], memo), by simp [derez, hAv, hl]⟩
          | none =>
              rw [hAv] at hval
              have ha : a < g.nodes.length := by simpa [refOK] using hval
              have hn : g.nodes[a]? = some g.nodes[a] := List.getElem?_eq_getElem ha
              have hmem : g.nodes[a] ∈ g.nodes := List.getElem_mem ha
              have hnode : nodeOK g g.nodes[a] = true :=
                List.all_eq_true.mp hg _ hmem
              have hlt : (unvisited g (memo ++ [(a, path)])).card < (unvisited g memo).card :=
                Finset.card_lt_card (unvisited_insert_ssubset g memo a path ha hl)
              have hBlt : (unvisited g (memo ++ [(a, path)])).card < u :=
                lt_of_lt_of_le hlt hcard
              have hVal : ∀ memo2, (unvisited g memo2).card ≤ (unvisited g (memo ++ [(a, path)])).card →
                  ∀ w path2, refOK g w = true →
                  ∃ fuel out, derez g rp fuel memo2 w path2 = some out :=
                fun memo2 hm2 => ih _ hBlt memo2 hm2
              cases hnd : g.nodes[a] with
              | garr es =>
                  have hes : ∀ w ∈ es, refOK g w = true := by
                    rw [hnd] at hnode
                    simpa [nodeOK, List.all_eq_true] using hnode
                  obtain ⟨fE, ⟨ts, m2⟩, hE⟩ :=
                    derezElems_total_of g rp _ hVal es (memo ++ [(a, path)]) path 0 le_rfl hes
                  refine ⟨fE + 1, (.arr ts, m2), ?_⟩
                  rw [hnd] at hn
                  simp [derez, hAv, hl, hn, hE]
              | gobj fs =>
                  have hfs : ∀ p ∈ fs, refOK g p.2 = true := by
                    rw [hnd] at hnode
                    simpa [nodeOK, List.all_eq_true] using hnode
                  obtain ⟨fE, ⟨ts, m2⟩, hE⟩ :=
                    derezFields_total_of g rp _ hVal fs (memo ++ [(a, path)]) path le_rfl hfs
                  refine ⟨fE + 1, (.obj ts, m2), ?_⟩
                  rw [hnd] at hn
                  simp [derez, hAv, hl, hn, hE]

/-- The memo never records the same address twice: an address is added only
after `objects.get` missed (a WeakMap cannot hold duplicate keys, and
neither can the model's list). -/
theorem derez_nodup_all (g : Graph) (rp : Option (GVal → GVal)) :
    ∀ fuel : Nat,
      (∀ memo v path t m2, derez g rp fuel memo v path = some (t, m2) →
        (memo.map Prod.fst).Nodup → (m2.map Prod.fst).Nodup) ∧
      (∀ memo vs path i ts m2, derezElems g rp fuel memo vs path i = some (ts, m2) →
        (memo.map Prod.fst).Nodup → (m2.map Prod.fst).Nodup) ∧
      (∀ memo fs path ts m2, derezFields g rp fuel memo fs path = some (ts, m2) →
        (memo.map Prod.fst).Nodup → (m2.map Prod.fst).Nodup) := by
  intro fuel
  induction fuel with
  | zero =>
      exact ⟨fun memo v path t m2 h => absurd h (by simp [derez]),
        fun memo vs path i ts m2 h => absurd h (by simp [derezElems]),
        fun memo fs path ts m2 h => absurd h (by simp [derezFields])⟩
  | succ n ih =>
      obtain ⟨ihV, ihE, ihF⟩ := ih
      refine ⟨?_, ?_, ?_⟩
      · intro memo v path t m2 h hnd
        simp only [derez] at h
        split at h
        · cases h; exact hnd
        · split at h
          · cases h; exact hnd
          · split at h
            · exact absurd h (by simp)
            · rename_i hlook x2 y2 z2
              simp only [Option.map_eq_some'] at h
              obtain ⟨⟨ts, m3⟩, hrec, hout⟩ := h
              cases hout
              refine ihE _ _ _ _ _ _ hrec ?_
              have hna := (lookupMemo_none_iff memo _).mp hlook
              simp [List.nodup_append, hnd, hna]
            · rename_i hlook x2 y2 z2
              simp only [Option.map_eq_some'] at h
              obtain ⟨⟨ts, m3⟩, hrec, hout⟩ := h
              cases hout
              refine ihF _ _ _ _ _ hrec ?_
              have hna := (lookupMemo_none_iff memo _).mp hlook
              simp [List.nodup_append, hnd, hna]
      · intro memo vs path i ts m2 h hnd
        cases vs with
        | nil => simp only [derezElems] at h; cases h; exact hnd
        | cons v vs2 =>
            simp only [derezElems] at h
            split at h
            · exact absurd h (by simp)
            · rename_i out1 t1 mA h1
              split at h
              · exact absurd h (by simp)
              · rename_i out2 ts2 mB h2
                cases h
                exact ihE _ _ _ _ _ _ h2 (ihV _ _ _ _ _ h1 hnd)
      · intro memo fs path ts m2 h hnd
        cases fs with
        | nil => simp only [derezFields] at h; cases h; exact hnd
        | cons kv fs2 =>
            obtain ⟨k, v⟩ := kv
            simp only [derezFields] at h
            split at h
            · exact absurd h (by simp)
            · rename_i out1 t1 mA h1
              split at h
              · exact absurd h (by simp)
              · rename_i out2 ts2 mB h2
                cases h
                exact ihF _ _ _ _ _ h2 (ihV _ _ _ _ _ h1 hnd)

/-- The self-referential array `a = []; a[0] = a`. -/
def gCycle : Graph := ⟨[.garr [.ref 0]]⟩

/-- Two branches of one array sharing the same object `{x: 5}`. -/
def gShare : Graph := ⟨[.gobj [("x", .prim (.num "5"))], .garr [.ref 0, .ref 0]]⟩

/-- C7: on every graph a repeated-by-identity composite is materialized in
full only at its first-encountered path, every later occurrence — cycles
included — becomes the RefMarker of that path, and `decycle` terminates.
Formalized as: (1) on every wellformed graph, with any replacer keeping
values in the store, some finite fuel completes `derez` — termination
regardless of cycles; (2) the memo never holds the same address twice, so
no composite is materialized at two paths; (3) the cycle `a = []; a[0] = a`
yields exactly the tree whose JSON rendering is `[{"$ref":"$"}]`; (4) a
shared (non-cyclic) sub-object is materialized at its first path `$[0]` and
referenced from the second occurrence. -/
theorem claim_C7 :
    (∀ (g : Graph) (rp : Option (GVal → GVal)) (v : GVal) (path : String),
        GraphWF g = true → ReplOK g rp → refOK g v = true →
        ∃ fuel out, derez g rp fuel [] v path = some out) ∧
    (∀ (g : Graph) (rp : Option (GVal → GVal)) (fuel : Nat)
        (memo m2 : List (Addr × String)) (v : GVal) (path : String) (t : JValue),
        derez g rp fuel memo v path = some (t, m2) →
        (memo.map Prod.fst).Nodup → (m2.map Prod.fst).Nodup) ∧
    decycle gCycle (.ref 0) none 5 = some (.arr [.obj [("$ref", .str "$")]]) ∧
    renderDoc (.arr [.obj [("$ref", .str "$")]]) = "[\x7b\x22$ref\x22:\x22$\x22\x7d]".toList ∧
    decycle gShare (.ref 1) none 5 =
      some (.arr [.obj [("x", .num "5")], .obj [("$ref", .str "$[0]")]]) := by
  refine ⟨?_, ?_, rfl, rfl, rfl⟩
  · intro g rp v path hg hrp hv
    exact derez_total g rp hg hrp (unvisited g []).card [] le_rfl v path hv
  · intro g rp fuel memo m2 v path t h hnd
    exact (derez_nodup_all g rp fuel).1 _ _ _ _ _ h hnd

/-- Witness for C7: the shared-subobject graph is wellformed, `derez`
terminates on it, and its final memo has no duplicate address. -/
theorem claim_C7_witness :
    (∃ fuel out, derez gShare none fuel [] (.ref 1) "$" = some out) ∧
    (([(1, "$"), (0, "$[0]")].map Prod.fst).Nodup) := by
  constructor
  · exact claim_C7.1 gShare none (.ref 1) "$" rfl trivial rfl
  · exact claim_C7.2.1 gShare none 5 []
      [(1, "$"), (0, "$[0]")] (.ref 1) "$"
      (.arr [.obj [("x", .num "5")], .obj [("$ref", .str "$[0]")]]) rfl (by simp)

/-!
### Decycle on graphs with no repeated composite (C9)

The spec side of C9 — "an acyclic value graph in which no composite
substructure occurs twice by identity, read as the tree it denotes" — is
the reader `loadT`.  Modelled from the spec: it walks the graph like a
plain deep copy and fails (`none`) as soon as any address is reached a
second time, so `loadT` succeeds exactly on the graphs C9 quantifies over,
and its result is the tree the original graph deep-equals. -/
mutual

def loadT (g : Graph) : Nat → List Addr → GVal → Option (JValue × List Addr)
  | 0, _, _ => none
  | _ + 1, seen, .prim p => some (p, seen)
  | fuel + 1, seen, .ref a =>
      if a ∈ seen then none
      else
        match g.nodes[a]? with
        | none => none
        | some (.garr es) =>
            (loadTElems g fuel (seen ++ [a]) es).map (fun p => (.arr p.1, p.2))
        | some (.gobj fs) =>
            (loadTFields g fuel (seen ++ [a]) fs).map (fun p => (.obj p.1, p.2))
termination_by structural fuel => fuel

def loadTElems (g : Graph) : Nat → List Addr → List GVal → Option (List JValue × List Addr)
  | 0, _, _ => none
  | _ + 1, seen, [] => some ([], seen)
  | fuel + 1, seen, v :: vs =>
      match loadT g fuel seen v with
      | none => none
      | some (t, seen2) =>
          match loadTElems g fuel seen2 vs with
          | none => none
          | some (ts, seen3) => some (t :: ts, seen3)
termination_by structural fuel => fuel

def loadTFields (g : Graph) :
    Nat → List Addr → List (String × GVal) → Option (List (String × JValue) × List Addr)
  | 0, _, _ => none
  | _ + 1, seen, [] => some ([], seen)
  | fuel + 1, seen, (k, v) :: fs =>
      match loadT g fuel seen v with
      | none => none
      | some (t, seen2) =>
          match loadTFields g fuel seen2 fs with
          | none => none
          | some (ts, seen3) => some ((k, t) :: ts, seen3)
termination_by structural fuel => fuel

end

/-- `derez` without replacer follows `loadT` step for step whenever the
latter succeeds: the memo keys evolve exactly like the seen-set, no address
is ever found in the memo, so no RefMarker is produced and the deep copy is
the tree itself. -/
theorem loadT_derez_all (g : Graph) :
    ∀ fuel : Nat,
      (∀ memo seen v path t seen2, memo.map Prod.fst = seen →
        loadT g fuel seen v = some (t, seen2) →
        ∃ m2, derez g none fuel memo v path = some (t, m2) ∧ m2.map Prod.fst = seen2) ∧
      (∀ memo seen vs path i ts seen2, memo.map Prod.fst = seen →
        loadTElems g fuel seen vs = some (ts, seen2) →
        ∃ m2, derezElems g none fuel memo vs path i = some (ts, m2) ∧
          m2.map Prod.fst = seen2) ∧
      (∀ memo seen fs path ts seen2, memo.map Prod.fst = seen →
        loadTFields g fuel seen fs = some (ts, seen2) →
        ∃ m2, derezFields g none fuel memo fs path = some (ts, m2) ∧
          m2.map Prod.fst = seen2) := by
  intro fuel
  induction fuel with
  | zero =>
      exact ⟨fun memo seen v path t seen2 hm h => absurd h (by simp [loadT]),
        fun memo seen vs path i ts seen2 hm h => absurd h (by simp [loadTElems]),
        fun memo seen fs path ts seen2 hm h => absurd h (by simp [loadTFields])⟩
  | succ n ih =>
      obtain ⟨ihV, ihE, ihF⟩ := ih
      refine ⟨?_, ?_, ?_⟩
      · intro memo seen v path t seen2 hm h
        cases v with
        | prim p =>
            simp only [loadT] at h
            cases h
            exact ⟨memo, by simp [derez, applyRp], hm⟩
        | ref a =>
            simp only [loadT] at h
            split at h
            · exact absurd h (by simp)
            · rename_i hnotin
              have hlook : lookupMemo memo a = none :=
                (lookupMemo_none_iff memo a).mpr (by rw [hm]; exact hnotin)
              split at h
              · exact absurd h (by simp)
              · rename_i es hnodes
                simp only [Option.map_eq_some'] at h
                obtain ⟨⟨ts, s3⟩, hrec, hout⟩ := h
                cases hout
                obtain ⟨m2, hd, hm2⟩ :=
                  ihE (memo ++ [(a, path)]) (seen ++ [a]) es path 0 ts s3
                    (by simp [hm]) hrec
                exact ⟨m2, by simp [derez, applyRp, hlook, hnodes, hd], hm2⟩
              · rename_i fs hnodes
                simp only [Option.map_eq_some'] at h
                obtain ⟨⟨ts, s3⟩, hrec, hout⟩ := h
                cases hout
                obtain ⟨m2, hd, hm2⟩ :=
                  ihF (memo ++ [(a, path)]) (seen ++ [a]) fs path ts s3
                    (by simp [hm]) hrec
                exact ⟨m2, by simp [derez, applyRp, hlook, hnodes, hd], hm2⟩
      · intro memo seen vs path i ts seen2 hm h
        cases vs with
        | nil =>
            simp only [loadTElems] at h
            cases h
            exact ⟨memo, by simp [derezElems], hm⟩
        | cons v vs2 =>
            simp only [loadTElems] at h
            split at h
            · exact absurd h (by simp)
            · rename_i t1 s2 h1
              split at h
              · exact absurd h (by simp)
              · rename_i ts2 s3 h2
                cases h
                obtain ⟨mA, hdA, hmA⟩ :=
                  ihV memo seen v (path ++ "[" ++ toString i ++ "]") t1 s2 hm h1
                obtain ⟨mB, hdB, hmB⟩ := ihE mA s2 vs2 path (i + 1) _ _ hmA h2
                exact ⟨mB, by simp [derezElems, hdA, hdB], hmB⟩
      · intro memo seen fs path ts seen2 hm h
        cases fs with
        | nil =>
            simp only [loadTFields] at h
            cases h
            exact ⟨memo, by simp [derezFields], hm⟩
        | cons kv fs2 =>
            obtain ⟨k, v⟩ := kv
            simp only [loadTFields] at h
            split at h
            · exact absurd h (by simp)
            · rename_i t1 s2 h1
              split at h
              · exact absurd h (by simp)
              · rename_i ts2 s3 h2
                cases h
                obtain ⟨mA, hdA, hmA⟩ :=
                  ihV memo seen v (path ++ "[" ++ jsQuote k ++ "]") t1 s2 hm h1
                obtain ⟨mB, hdB, hmB⟩ := ihF mA s2 fs2 path _ _ hmA h2
                exact ⟨mB, by simp [derezFields, hdA, hdB], hmB⟩

/-- C9: on every acyclic value graph in which no composite substructure
occurs twice by identity — exactly the graphs the reader `loadT` accepts —
`decycle` without a transform returns the deep copy that is deep-equal to
the original, i.e. the very tree the graph denotes. -/
theorem claim_C9 (g : Graph) (fuel : Nat) (v : GVal) (t : JValue)
    (seen : List Addr) (h : loadT g fuel [] v = some (t, seen)) :
    decycle g v none fuel = some t := by
  obtain ⟨m2, hd, hm2⟩ := (loadT_derez_all g fuel).1 [] [] v "$" t seen rfl h
  simp [decycle, hd]

/-- An acyclic, sharing-free graph for the C9 witness. -/
def gTree : Graph :=
  ⟨[.garr [.prim (.num "1"), .ref 1], .gobj [("a", .prim .null)]]⟩

/-- Witness for C9 on a concrete acyclic graph. -/
theorem claim_C9_witness :
    decycle gTree (.ref 0) none 9 = some (.arr [.num "1", .obj [("a", .null)]]) :=
  claim_C9 gTree 9 (.ref 0) (.arr [.num "1", .obj [("a", .null)]]) [0, 1] rfl

/-!
### The replacer runs before the memo lookup (C10) -/

/-- A replacer mapping the reference to node 1 onto the reference to node
0, keeping everything else: two composites that are distinct by identity in
the input become the same value after replacement. -/
def replColl : GVal → GVal
  | .ref 1 => .ref 0
  | v => v

/-- Store with two distinct objects at addresses 0 and 1, both reachable
from the array at address 2. -/
def gColl : Graph :=
  ⟨[.gobj [("a", .prim (.num "1"))], .gobj [("b", .prim (.num "2"))],
    .garr [.ref 0, .ref 1]]⟩

/-- C10: `derez` applies the replacer to every visited node before the
already-visited memo lookup, and the memo is keyed on the replacer's
output.  First conjunct: whenever the replacer returns a non-composite,
the call returns that value with the memo untouched — even when the input
is a reference whose address is already memoized, no RefMarker is produced,
so the lookup must be on the output, after the replacer ran.  Second
conjunct: two appearances of by-identity distinct composites (addresses
0 and 1) collapse to a single materialization plus a RefMarker because the
replacer returns the identical composite (address 0) for both, and the
final memo holds the output address 0, never the input address 1. -/
theorem claim_C10 :
    (∀ (g : Graph) (f : GVal → GVal) (fuel : Nat) (memo : List (Addr × String))
        (v : GVal) (path : String) (p : JValue),
        f v = .prim p →
        derez g (some f) (fuel + 1) memo v path = some (p, memo)) ∧
    derez gColl (some replColl) 9 [] (.ref 2) "$" =
      some (.arr [.obj [("a", .num "1")], .obj [("$ref", .str "$[0]")]],
            [(2, "$"), (0, "$[0]")]) := by
  constructor
  · intro g f fuel memo v path p hf
    simp [derez, applyRp, hf]
  · rfl

/-- Witness for C10: with address 0 already memoized, a prim-returning
replacer still yields the primitive, not a RefMarker. -/
theorem claim_C10_witness :
    derez gCycle (some (fun _ => .prim (.num "7"))) 1 [(0, "$")] (.ref 0) "x" =
      some (.num "7", [(0, "$")]) :=
  claim_C10.1 gCycle (fun _ => .prim (.num "7")) 0 [(0, "$")] (.ref 0) "x" (.num "7") rfl

/-!
### Tokenizing a canonical rendering

The scanner lemmas: skipping the tail of an emitted token, emitting one
token, skipping one non-token character. -/

/-- The last character of a block, or the previous character when the block
is empty (the `prev` tracking of the scanner). -/
def lastOr : List Char → Option Char → Option Char
  | [], prev => prev
  | c :: cs, _ => lastOr cs (some c)

/-- The word-character test the scanner applies to `prev`. -/
def prevW : Option Char → Bool
  | some p => isWordChar p
  | none => false

theorem scanAux_skip (blk : List Char) :
    ∀ (m : Nat) (prev : Option Char) (cs : List Char) (pos : Nat),
      scanAux (blk.length + m) prev (blk ++ cs) pos =
        scanAux m (lastOr blk prev) cs (pos + blk.length) := by
  induction blk with
  | nil => intro m prev cs pos; simp [lastOr]
  | cons c blk ih =>
      intro m prev cs pos
      have harith : (c :: blk).length + m = (blk.length + m) + 1 := by
        simp [List.length_cons]; omega
      rw [harith]
      show scanAux (blk.length + m + 1) prev (c :: (blk ++ cs)) pos = _
      rw [scanAux, ih]
      have h2 : pos + (c :: blk).length = pos + 1 + blk.length := by
        simp [List.length_cons]; omega
      rw [h2]
      rfl

theorem scanAux_tok (tk : List Char) (k : TokKind) (prev : Option Char)
    (cs : List Char) (pos : Nat) (hne : tk ≠ [])
    (h : tryTok (prevW prev) (tk ++ cs) = some (k, tk.length)) :
    scanAux 0 prev (tk ++ cs) pos =
      ⟨k, pos, tk.length⟩ :: scanAux 0 (lastOr tk prev) cs (pos + tk.length) := by
  cases tk with
  | nil => exact absurd rfl hne
  | cons c tk =>
      rw [List.cons_append] at h
      show (match tryTok (prevW prev) (c :: (tk ++ cs)) with
            | some (k, n) => Tok.mk k pos n :: scanAux (n - 1) (some c) (tk ++ cs) (pos + 1)
            | none => scanAux 0 (some c) (tk ++ cs) (pos + 1)) = _
      rw [h]
      have hlen : (c :: tk).length - 1 = tk.length + 0 := by simp
      dsimp only
      rw [hlen, scanAux_skip]
      have : pos + 1 + tk.length = pos + (c :: tk).length := by simp; omega
      rw [this]
      rfl

theorem scanAux_sep (c : Char) (prev : Option Char) (cs : List Char) (pos : Nat)
    (h : tryTok (prevW prev) (c :: cs) = none) :
    scanAux 0 prev (c :: cs) pos = scanAux 0 (some c) cs (pos + 1) := by
  show (match tryTok (prevW prev) (c :: cs) with
        | some (k, n) => Tok.mk k pos n :: scanAux (n - 1) (some c) cs (pos + 1)
        | none => scanAux 0 (some c) cs (pos + 1)) = _
  rw [h]

theorem tryTok_comma (pw : Bool) (cs : List Char) :
    tryTok pw (',' :: cs) = none := rfl

theorem tryTok_colon (pw : Bool) (cs : List Char) :
    tryTok pw (':' :: cs) = none := rfl

theorem tryTok_obrace (pw : Bool) (cs : List Char) :
    tryTok pw ('\x7b' :: cs) = some (.obrace, 1) := rfl

theorem tryTok_cbrace (pw : Bool) (cs : List Char) :
    tryTok pw ('\x7d' :: cs) = some (.cbrace, 1) := rfl

theorem tryTok_obrack (pw : Bool) (cs : List Char) :
    tryTok pw ('[' :: cs) = some (.obrack, 1) := rfl

theorem tryTok_cbrack (pw : Bool) (cs : List Char) :
    tryTok pw (']' :: cs) = some (.cbrack, 1) := rfl

theorem tryTok_true (pw : Bool) (cs : List Char) :
    tryTok pw ('t' :: 'r' :: 'u' :: 'e' :: cs) = some (.litTrue, 4) := rfl

theorem tryTok_false (pw : Bool) (cs : List Char) :
    tryTok pw ('f' :: 'a' :: 'l' :: 's' :: 'e' :: cs) = some (.litFalse, 5) := rfl

theorem tryTok_null (pw : Bool) (cs : List Char) :
    tryTok pw ('n' :: 'u' :: 'l' :: 'l' :: cs) = some (.litNull, 4) := rfl

/-!
### String tokens: the canonical escaping round-trips -/

theorem hexDig_isHex : ∀ n, n < 16 → isHexDigit (hexDig n) = true := by decide

theorem hexVal_hexDig : ∀ n, n < 16 → hexVal (hexDig n) = some n := by decide

theorem strBody_escChar (c : Char) (r : List Char) :
    strBody (escChar c ++ r) = (strBody r).map (fun p => (escChar c ++ p.1, p.2)) := by
  by_cases h1 : c = '"'
  · subst h1
    rw [show escChar '"' = ['\\', '"'] from rfl]
    rw [strBody.eq_def]
    simp
  by_cases h2 : c = '\\'
  · subst h2
    rw [show escChar '\\' = ['\\', '\\'] from rfl]
    rw [strBody.eq_def]
    simp
  by_cases h3 : c.toNat = 8
  · have he : escChar c = ['\\', 'b'] := by simp [escChar, h1, h2, h3]
    rw [he, strBody.eq_def]
    simp
  by_cases h4 : c.toNat = 12
  · have he : escChar c = ['\\', 'f'] := by simp [escChar, h1, h2, h3, h4]
    rw [he, strBody.eq_def]
    simp
  by_cases h5 : c = '\n'
  · subst h5
    rw [show escChar '\n' = ['\\', 'n'] from rfl]
    rw [strBody.eq_def]
    simp
  by_cases h6 : c.toNat = 13
  · have he : escChar c = ['\\', 'r'] := by simp [escChar, h1, h2, h3, h4, h5, h6]
    rw [he, strBody.eq_def]
    simp
  by_cases h7 : c = '\t'
  · subst h7
    rw [show escChar '\t' = ['\\', 't'] from rfl]
    rw [strBody.eq_def]
    simp
  by_cases h8 : c.toNat < 32
  · have hhi : c.toNat / 16 < 16 := by omega
    have hlo : c.toNat % 16 < 16 := by omega
    have he : escChar c = ['\\', 'u', '0', '0', hexDig (c.toNat / 16), hexDig (c.toNat % 16)] := by
      simp [escChar, h1, h2, h3, h4, h5, h6, h7, h8]
    have h0 : isHexDigit '0' = true := by decide
    rw [he, strBody.eq_def]
    simp [h0, hexDig_isHex _ hhi, hexDig_isHex _ hlo]
  · have hp : strPlain c = true := by
      simp only [strPlain, decide_eq_true_eq]
      push_neg
      refine ⟨by omega, by omega, h1, h2⟩
    have he : escChar c = [c] := by
      simp [escChar, h1, h2, h3, h4, h5, h6, h7, h8]
    rw [he, strBody.eq_def]
    simp [h1, h2, hp]

theorem strBody_escStr (s : List Char) (cs : List Char) :
    strBody (escStr s ++ '"' :: cs) = some (escStr s, cs) := by
  induction s with
  | nil =>
      show strBody ('"' :: cs) = some ([], cs)
      rw [strBody.eq_def]
      simp
  | cons c s ih =>
      show strBody ((escChar c ++ escStr s) ++ '"' :: cs) = _
      rw [List.append_assoc, strBody_escChar, ih]
      rfl

theorem tryTok_string (s : List Char) (cs : List Char) (pw : Bool) :
    tryTok pw ('"' :: (escStr s ++ '"' :: cs)) =
      some (.str (escStr s), (escStr s).length + 2) := by
  simp [tryTok, strBody_escStr]

theorem unescape_escChar (c : Char) (r : List Char) :
    unescape (escChar c ++ r) = c :: unescape r := by
  by_cases h1 : c = '"'
  · subst h1
    rw [show escChar '"' = ['\\', '"'] from rfl]
    rw [unescape.eq_def]
    simp [escTable]
  by_cases h2 : c = '\\'
  · subst h2
    rw [show escChar '\\' = ['\\', '\\'] from rfl]
    rw [unescape.eq_def]
    simp [escTable]
  by_cases h3 : c.toNat = 8
  · have hc : Char.ofNat 8 = c := by rw [← h3]; exact Char.ofNat_toNat c
    have he : escChar c = ['\\', 'b'] := by simp [escChar, h1, h2, h3]
    rw [he, unescape.eq_def]
    simp [escTable]
    exact hc
  by_cases h4 : c.toNat = 12
  · have hc : Char.ofNat 12 = c := by rw [← h4]; exact Char.ofNat_toNat c
    have he : escChar c = ['\\', 'f'] := by simp [escChar, h1, h2, h3, h4]
    rw [he, unescape.eq_def]
    simp [escTable]
    exact hc
  by_cases h5 : c = '\n'
  · subst h5
    rw [show escChar '\n' = ['\\', 'n'] from rfl]
    rw [unescape.eq_def]
    simp [escTable]
  by_cases h6 : c.toNat = 13
  · have hc : Char.ofNat 13 = c := by rw [← h6]; exact Char.ofNat_toNat c
    have he : escChar c = ['\\', 'r'] := by simp [escChar, h1, h2, h3, h4, h5, h6]
    rw [he, unescape.eq_def]
    simp [escTable]
    exact hc
  by_cases h7 : c = '\t'
  · subst h7
    rw [show escChar '\t' = ['\\', 't'] from rfl]
    rw [unescape.eq_def]
    simp [escTable]
  by_cases h8 : c.toNat < 32
  · have hhi : c.toNat / 16 < 16 := by omega
    have hlo : c.toNat % 16 < 16 := by omega
    have he : escChar c = ['\\', 'u', '0', '0', hexDig (c.toNat / 16), hexDig (c.toNat % 16)] := by
      simp [escChar, h1, h2, h3, h4, h5, h6, h7, h8]
    have hvals : hex4 '0' '0' (hexDig (c.toNat / 16)) (hexDig (c.toNat % 16)) = c.toNat := by
      have e1 := hexVal_hexDig _ hhi
      have e2 := hexVal_hexDig _ hlo
      simp [hex4, e1, e2, show hexVal '0' = some 0 from rfl]
      omega
    rw [he, unescape.eq_def]
    simp [hvals, Char.ofNat_toNat]
  · have he : escChar c = [c] := by
      simp [escChar, h1, h2, h3, h4, h5, h6, h7, h8]
    rw [he, unescape.eq_def]
    simp [h2]

theorem unescape_escStr (l : List Char) : unescape (escStr l) = l := by
  induction l with
  | nil => rfl
  | cons c l ih =>
      show unescape (escChar c ++ escStr l) = _
      rw [unescape_escChar, ih]

theorem escChar_shape (c : Char) : escChar c = [c] ∨ ∃ tl, escChar c = '\\' :: tl := by
  unfold escChar
  split_ifs <;> first | exact Or.inl rfl | exact Or.inr ⟨_, rfl⟩

theorem escStr_no_slash (l : List Char) (h : ('\\' ∈ escStr l) → False) :
    escStr l = l := by
  induction l with
  | nil => rfl
  | cons c l ih =>
      show escChar c ++ escStr l = c :: l
      cases escChar_shape c with
      | inl he =>
          rw [he]
          have : escStr l = l := ih (fun hm => h (by show '\\' ∈ escChar c ++ escStr l; rw [he]; simp [hm]))
          rw [this]
          rfl
      | inr he =>
          obtain ⟨tl, htl⟩ := he
          exact absurd (by show '\\' ∈ escChar c ++ escStr l; rw [htl]; simp) h

/-- The content the builder computes from the raw body of a canonical
string token is the original string. -/
theorem strContent (l : List Char) :
    (if (escStr l).contains '\\' then unescape (escStr l) else escStr l) = l := by
  by_cases h : (escStr l).contains '\\'
  · rw [if_pos h, unescape_escStr]
  · rw [if_neg h]
    refine escStr_no_slash l (fun hm => h ?_)
    exact List.elem_iff.mpr hm

/-!
### Number tokens: canonical payloads match in one piece -/

def headDigit : List Char → Bool
  | [] => false
  | c :: _ => c.isDigit

def headDot : List Char → Bool
  | [] => false
  | c :: _ => c = '.'

def headE : List Char → Bool
  | [] => false
  | c :: _ => c = 'e' ∨ c = 'E'

/-- What may follow a canonically rendered number: nothing, or a comma or
closing bracket. -/
def sepAfter : List Char → Bool
  | [] => true
  | c :: _ => c = ',' ∨ c = ']' ∨ c = '\x7d'

theorem sepAfter_facts (cs : List Char) (h : sepAfter cs = true) :
    headDigit cs = false ∧ headDot cs = false ∧ headE cs = false ∧ bOk cs = true := by
  cases cs with
  | nil => exact ⟨rfl, rfl, rfl, rfl⟩
  | cons c r =>
      simp only [sepAfter, decide_eq_true_eq] at h
      rcases h with h | h | h <;> subst h <;> exact ⟨rfl, rfl, rfl, rfl⟩

theorem takeDigits_app (l z : List Char)
    (hz : (takeDigits l).2 = [] → headDigit z = false) :
    takeDigits (l ++ z) = ((takeDigits l).1, (takeDigits l).2 ++ z) := by
  induction l with
  | nil =>
      simp only [takeDigits, List.nil_append]
      cases z with
      | nil => rfl
      | cons c r =>
          have : headDigit (c :: r) = false := hz rfl
          simp only [headDigit] at this
          simp [takeDigits, this]
  | cons c l ih =>
      by_cases hc : c.isDigit
      · have ih2 := ih (fun h2 => hz (by simp [takeDigits, hc, h2]))
        rw [List.cons_append,
          show takeDigits (c :: (l ++ z)) =
              (c :: (takeDigits (l ++ z)).1, (takeDigits (l ++ z)).2) from by
            simp [takeDigits, hc],
          ih2]
        simp [takeDigits, hc]
      · simp [takeDigits, hc]

theorem takeDigits_split (l : List Char) : l = (takeDigits l).1 ++ (takeDigits l).2 := by
  induction l with
  | nil => rfl
  | cons c l ih =>
      by_cases hc : c.isDigit
      · simp only [takeDigits, hc, if_pos]
        exact congrArg (c :: ·) ih
      · simp [takeDigits, hc]

theorem intPart_app (l z ip rest : List Char) (h : intPart l = some (ip, rest))
    (hz : rest = [] → headDigit z = false) :
    intPart (l ++ z) = some (ip, rest ++ z) := by
  cases l with
  | nil => exact absurd h (by simp [intPart])
  | cons c cs =>
      by_cases h0 : c = '0'
      · simp only [intPart, h0, if_pos] at h
        cases h
        simp [intPart, h0]
      · by_cases hd : c.isDigit
        · simp only [intPart, h0, hd, if_neg, if_pos, if_true, ite_false] at h
          cases h
          have := takeDigits_app cs z (by intro h2; exact hz (by simp [h2]))
          simp [intPart, h0, hd, this]
        · simp [intPart, h0, hd] at h

theorem intPart_split (l ip rest : List Char) (h : intPart l = some (ip, rest)) :
    l = ip ++ rest := by
  cases l with
  | nil => exact absurd h (by simp [intPart])
  | cons c cs =>
      by_cases h0 : c = '0'
      · simp only [intPart, h0, if_pos] at h
        cases h
        simp [h0]
      · by_cases hd : c.isDigit
        · simp only [intPart, h0, hd, if_neg, if_pos, if_true, ite_false] at h
          cases h
          simpa using congrArg (c :: ·) (takeDigits_split cs)
        · simp [intPart, h0, hd] at h

theorem intPart_head (l ip rest : List Char) (h : intPart l = some (ip, rest)) :
    headDigit l = true := by
  cases l with
  | nil => exact absurd h (by simp [intPart])
  | cons c cs =>
      by_cases h0 : c = '0'
      · simp [headDigit, h0]
      · by_cases hd : c.isDigit
        · simp [headDigit, hd]
        · simp [intPart, h0, hd] at h

theorem fracPart_app (l z fp rest : List Char) (h : fracPart l = some (fp, rest))
    (hz : rest = [] → headDigit z = false) :
    fracPart (l ++ z) = some (fp, rest ++ z) := by
  cases l with
  | nil => exact absurd h (by simp [fracPart])
  | cons c cs =>
      by_cases hc : c = '.'
      · simp only [fracPart, hc, if_pos] at h
        by_cases he : (takeDigits cs).1.isEmpty
        · rw [if_pos he] at h; exact absurd h (by simp)
        · rw [if_neg he] at h
          cases h
          have := takeDigits_app cs z (by intro h2; exact hz (by simp [h2]))
          simp [fracPart, hc, this, he]
      · simp [fracPart, hc] at h

theorem fracPart_split (l fp rest : List Char) (h : fracPart l = some (fp, rest)) :
    l = fp ++ rest := by
  cases l with
  | nil => exact absurd h (by simp [fracPart])
  | cons c cs =>
      by_cases hc : c = '.'
      · simp only [fracPart, hc, if_pos] at h
        by_cases he : (takeDigits cs).1.isEmpty
        · rw [if_pos he] at h; exact absurd h (by simp)
        · rw [if_neg he] at h
          cases h
          simpa [hc] using congrArg (c :: ·) (takeDigits_split cs)
      · simp [fracPart, hc] at h

theorem fracPart_none (l : List Char) (h : headDot l = false) : fracPart l = none := by
  cases l with
  | nil => rfl
  | cons c cs =>
      have h2 : ¬ c = '.' := by simpa [headDot] using h
      simp [fracPart, h2]

theorem fracPart_head (l fp rest : List Char) (h : fracPart l = some (fp, rest)) :
    headDot l = true := by
  cases l with
  | nil => exact absurd h (by simp [fracPart])
  | cons c cs =>
      by_cases hc : c = '.'
      · simp [headDot, hc]
      · simp [fracPart, hc] at h

theorem expPart_app (l z ex rest : List Char) (h : expPart l = some (ex, rest))
    (hz : rest = [] → headDigit z = false) :
    expPart (l ++ z) = some (ex, rest ++ z) := by
  cases l with
  | nil => exact absurd h (by simp [expPart])
  | cons c cs =>
      by_cases hc : c = 'e' ∨ c = 'E'
      · rw [expPart.eq_def] at h
        simp only [if_pos hc] at h
        cases cs with
        | nil => exact absurd h (by simp)
        | cons s cs2 =>
            by_cases hs : s = '+' ∨ s = '-'
            · simp only [if_pos hs] at h
              by_cases he : (takeDigits cs2).1.isEmpty
              · rw [if_pos he] at h; exact absurd h (by simp)
              · rw [if_neg he] at h
                cases h
                have hq := takeDigits_app cs2 z hz
                rw [show (c :: s :: cs2) ++ z = c :: s :: (cs2 ++ z) from rfl,
                  expPart.eq_def]
                simp only [if_pos hc, if_pos hs, hq]
                simp [he]
            · simp only [if_neg hs, ite_false] at h
              by_cases he : (takeDigits (s :: cs2)).1.isEmpty
              · rw [if_pos he] at h; exact absurd h (by simp)
              · rw [if_neg he] at h
                cases h
                have hq := takeDigits_app (s :: cs2) z hz
                rw [show (s :: cs2) ++ z = s :: (cs2 ++ z) from rfl] at hq
                rw [show (c :: s :: cs2) ++ z = c :: s :: (cs2 ++ z) from rfl,
                  expPart.eq_def]
                simp only [if_pos hc, if_neg hs, ite_false, hq]
                simp [he]
      · simp [expPart, hc] at h

theorem expPart_split (l ex rest : List Char) (h : expPart l = some (ex, rest)) :
    l = ex ++ rest := by
  cases l with
  | nil => exact absurd h (by simp [expPart])
  | cons c cs =>
      by_cases hc : c = 'e' ∨ c = 'E'
      · rw [expPart.eq_def] at h
        simp only [if_pos hc] at h
        cases cs with
        | nil => exact absurd h (by simp)
        | cons s cs2 =>
            by_cases hs : s = '+' ∨ s = '-'
            · simp only [if_pos hs] at h
              by_cases he : (takeDigits cs2).1.isEmpty
              · rw [if_pos he] at h; exact absurd h (by simp)
              · rw [if_neg he] at h
                cases h
                simpa using congrArg (fun t => c :: s :: t) (takeDigits_split cs2)
            · simp only [if_neg hs, ite_false] at h
              by_cases he : (takeDigits (s :: cs2)).1.isEmpty
              · rw [if_pos he] at h; exact absurd h (by simp)
              · rw [if_neg he] at h
                cases h
                simpa using congrArg (c :: ·) (takeDigits_split (s :: cs2))
      · simp [expPart, hc] at h

theorem expPart_none (l : List Char) (h : headE l = false) : expPart l = none := by
  cases l with
  | nil => rfl
  | cons c cs =>
      have h2 : ¬ (c = 'e' ∨ c = 'E') := by simpa [headE] using h
      simp [expPart, h2]

theorem expPart_head (l ex rest : List Char) (h : expPart l = some (ex, rest)) :
    headE l = true := by
  cases l with
  | nil => exact absurd h (by simp [expPart])
  | cons c cs =>
      by_cases hc : c = 'e' ∨ c = 'E'
      · simp [headE, hc]
      · simp [expPart, hc] at h

theorem numTail_wf (P r1 cs : List Char) (h : tailWF r1 = true)
    (hs : sepAfter cs = true) : numTail P (r1 ++ cs) = some (P ++ r1, cs) := by
  obtain ⟨hd, hdot, hE, hb⟩ := sepAfter_facts cs hs
  simp only [tailWF] at h
  rw [numTail]
  cases hf : fracPart r1 with
  | some pr =>
      obtain ⟨fp, r2⟩ := pr
      simp only [hf] at h
      have hfa := fracPart_app r1 cs fp r2 hf (fun _ => hd)
      cases he : expPart r2 with
      | some pe =>
          obtain ⟨ep, r3⟩ := pe
          simp only [he] at h
          have hr3 : r3 = [] := by
            cases r3 with
            | nil => rfl
            | cons a b => simp [List.isEmpty] at h
          subst hr3
          have hea := expPart_app r2 cs ep [] he (fun _ => hd)
          simp only [List.nil_append] at hea
          simp only [hfa, hea]
          rw [if_pos hb]
          have hsp : r1 = fp ++ ep := by
            have h1 := fracPart_split r1 fp r2 hf
            have h2 := expPart_split r2 ep [] he
            rw [h2, List.append_nil] at h1
            exact h1
          rw [hsp, List.append_assoc]
      | none =>
          simp only [he] at h
          have hr2 : r2 = [] := by
            cases r2 with
            | nil => rfl
            | cons a b => simp [List.isEmpty] at h
          subst hr2
          simp only [List.nil_append] at hfa
          simp only [hfa, expPart_none cs hE]
          rw [if_pos hb]
          have hsp : r1 = fp := by simpa using fracPart_split r1 fp [] hf
          rw [hsp]
  | none =>
      simp only [hf] at h
      cases he : expPart r1 with
      | some pe =>
          obtain ⟨ep, r3⟩ := pe
          simp only [he] at h
          have hr3 : r3 = [] := by
            cases r3 with
            | nil => rfl
            | cons a b => simp [List.isEmpty] at h
          subst hr3
          have hh := expPart_head r1 ep [] he
          have hfn : fracPart (r1 ++ cs) = none := by
            cases r1 with
            | nil => simp [headE] at hh
            | cons c t =>
                apply fracPart_none
                simp only [headE, decide_eq_true_eq] at hh
                rcases hh with hh | hh <;> subst hh <;> rfl
          have hea := expPart_app r1 cs ep [] he (fun _ => hd)
          simp only [List.nil_append] at hea
          simp only [hfn, hea]
          rw [if_pos hb]
          have hsp : r1 = ep := by simpa using expPart_split r1 ep [] he
          rw [hsp]
      | none =>
          simp only [he] at h
          have hr1 : r1 = [] := by
            cases r1 with
            | nil => rfl
            | cons a b => simp [List.isEmpty] at h
          subst hr1
          simp only [List.nil_append]
          simp only [fracPart_none cs hdot, expPart_none cs hE]
          rw [if_pos hb, List.append_nil]

theorem matchNumber_wf (raw cs : List Char) (h : NumWF raw = true)
    (hs : sepAfter cs = true) :
    matchNumber false (raw ++ cs) = some (raw, cs) := by
  obtain ⟨hd, -, -, -⟩ := sepAfter_facts cs hs
  cases raw with
  | nil => simp [NumWF, intPart] at h
  | cons c t =>
      by_cases hm : c = '-'
      · subst hm
        simp only [NumWF, ite_true] at h
        cases hip : intPart t with
        | none => simp [hip] at h
        | some p =>
            obtain ⟨ip, r1⟩ := p
            simp only [hip] at h
            have hia := intPart_app t cs ip r1 hip (fun _ => hd)
            have hcore : numCore false (('-' :: t) ++ cs) = some ('-' :: ip, r1 ++ cs) := by
              rw [List.cons_append]
              simp [numCore, hia]
            simp only [matchNumber, hcore]
            rw [numTail_wf ('-' :: ip) r1 cs h hs]
            have hsp := intPart_split t ip r1 hip
            rw [show ('-' :: ip) ++ r1 = '-' :: (ip ++ r1) from rfl, ← hsp]
      · simp only [NumWF] at h
        rw [if_neg hm] at h
        cases hip : intPart (c :: t) with
        | none => simp [hip] at h
        | some p =>
            obtain ⟨ip, r1⟩ := p
            simp only [hip] at h
            have hia := intPart_app (c :: t) cs ip r1 hip (fun _ => hd)
            rw [List.cons_append] at hia
            have hcore : numCore false ((c :: t) ++ cs) = some (ip, r1 ++ cs) := by
              rw [List.cons_append]
              simp [numCore, hm, hia]
            simp only [matchNumber, hcore]
            rw [numTail_wf ip r1 cs h hs]
            rw [← intPart_split (c :: t) ip r1 hip]

theorem tryTok_num (raw cs : List Char) (h : NumWF raw = true)
    (hs : sepAfter cs = true) :
    tryTok false (raw ++ cs) = some (.num raw, raw.length) := by
  have hm := matchNumber_wf raw cs h hs
  cases raw with
  | nil => simp [NumWF, intPart] at h
  | cons c t =>
      have hfirst : c = '-' ∨ c.isDigit := by
        simp only [NumWF] at h
        by_cases hc : c = '-'
        · exact Or.inl hc
        · rw [if_neg hc] at h
          right
          cases hip : intPart (c :: t) with
          | none => rw [hip] at h; exact absurd h (by simp)
          | some p =>
              have := intPart_head (c :: t) p.1 p.2 (by rw [hip])
              simpa [headDigit] using this
      have hne : ∀ x : Char, x ∈ (['\x7b', '\x7d', '[', ']', 'f', 't', 'n', '"'] : List Char) →
          ¬ c = x := by
        intro x hx he
        subst he
        rcases hfirst with hq | hq
        · subst hq
          exact absurd hx (by decide)
        · fin_cases hx <;> exact absurd hq (by decide)
      rw [List.cons_append, tryTok]
      rw [if_neg (hne _ (by decide)), if_neg (hne _ (by decide)),
        if_neg (hne _ (by decide)), if_neg (hne _ (by decide)),
        if_neg (hne _ (by decide)), if_neg (hne _ (by decide)),
        if_neg (hne _ (by decide)), if_neg (hne _ (by decide)),
        if_pos hfirst]
      rw [← List.cons_append, hm]
      rfl

/-!
### Scanning a rendered document

The token kinds a canonical rendering produces, and the proof that the
scanner recovers exactly them, in one pass, leaving any continuation of the
buffer to be scanned independently. -/

def isContainer : JValue → Bool
  | .arr _ => true
  | .obj _ => true
  | _ => false

mutual

def vtoksK : JValue → List TokKind
  | .undef => []
  | .null => [.litNull]
  | .bool true => [.litTrue]
  | .bool false => [.litFalse]
  | .num raw => [.num raw.toList]
  | .str s => [.str (escStr s.toList)]
  | .arr es => .obrack :: (vtoksKElems es ++ [.cbrack])
  | .obj fs => .obrace :: (vtoksKFields fs ++ [.cbrace])

def vtoksKElems : List JValue → List TokKind
  | [] => []
  | [v] => vtoksK v
  | v :: vs => vtoksK v ++ vtoksKElems vs

def vtoksKFields : List (String × JValue) → List TokKind
  | [] => []
  | [(k, v)] => .str (escStr k.toList) :: vtoksK v
  | (k, v) :: fs => (.str (escStr k.toList) :: vtoksK v) ++ vtoksKFields fs

end

/-- Whether the continuation `cs` keeps the trailing token of the rendering
intact: only a trailing number token constrains it. -/
def sepNeed : JValue → List Char → Bool
  | .num _, cs => sepAfter cs
  | _, _ => true

def sepNeedElems : List JValue → List Char → Bool
  | [], _ => true
  | [v], cs => sepNeed v cs
  | _ :: vs, cs => sepNeedElems vs cs

def sepNeedFields : List (String × JValue) → List Char → Bool
  | [], _ => true
  | [(_, v)], cs => sepNeed v cs
  | _ :: fs, cs => sepNeedFields fs cs

theorem sepNeed_of_sep (v : JValue) (cs : List Char) (h : sepAfter cs = true) :
    sepNeed v cs = true := by
  cases v <;> simp [sepNeed, h]

theorem lastOr_append (a b : List Char) (p : Option Char) :
    lastOr (a ++ b) p = lastOr b (lastOr a p) := by
  induction a generalizing p with
  | nil => rfl
  | cons c a ih => exact ih (some c)

theorem sepNeedElems_of_sep (es : List JValue) (cs : List Char)
    (h : sepAfter cs = true) : sepNeedElems es cs = true := by
  induction es with
  | nil => rfl
  | cons v vs ih =>
      cases vs with
      | nil => exact sepNeed_of_sep v cs h
      | cons w ws => exact ih

theorem sepNeedFields_of_sep (fs : List (String × JValue)) (cs : List Char)
    (h : sepAfter cs = true) : sepNeedFields fs cs = true := by
  induction fs with
  | nil => rfl
  | cons kv fs ih =>
      obtain ⟨k, v⟩ := kv
      cases fs with
      | nil => exact sepNeed_of_sep v cs h
      | cons kv2 fs2 => exact ih

mutual

theorem renderToks (v : JValue) (cs : List Char) (prev : Option Char) (pos : Nat)
    (hwf : JWF v = true) (hp : prevW prev = false) (hn : sepNeed v cs = true) :
    ∃ t ts2,
      scanAux 0 prev (renderDoc v ++ cs) pos =
        (t :: ts2) ++
          scanAux 0 (lastOr (renderDoc v) prev) cs (pos + (renderDoc v).length) ∧
      (t :: ts2).map Tok.kind = vtoksK v ∧ t.start = pos := by
  cases v with
  | undef => simp [JWF] at hwf
  | null =>
      exact ⟨⟨.litNull, pos, 4⟩, [],
        scanAux_tok ['n','u','l','l'] .litNull prev cs pos (by simp)
          (tryTok_null (prevW prev) cs), rfl, rfl⟩
  | bool b =>
      cases b with
      | true =>
          exact ⟨⟨.litTrue, pos, 4⟩, [],
            scanAux_tok ['t','r','u','e'] .litTrue prev cs pos (by simp)
              (tryTok_true (prevW prev) cs), rfl, rfl⟩
      | false =>
          exact ⟨⟨.litFalse, pos, 5⟩, [],
            scanAux_tok ['f','a','l','s','e'] .litFalse prev cs pos (by simp)
              (tryTok_false (prevW prev) cs), rfl, rfl⟩
  | num raw =>
      simp only [JWF] at hwf
      simp only [sepNeed] at hn
      have hne : raw.toList ≠ [] := by
        intro he
        rw [he] at hwf
        simp [NumWF, intPart] at hwf
      have htt : tryTok (prevW prev) (raw.toList ++ cs) =
          some (.num raw.toList, raw.toList.length) := by
        rw [hp]; exact tryTok_num raw.toList cs hwf hn
      exact ⟨⟨.num raw.toList, pos, raw.toList.length⟩, [],
        scanAux_tok raw.toList (.num raw.toList) prev cs pos hne htt, rfl, rfl⟩
  | str s =>
      have htt : tryTok (prevW prev) (('"' :: (escStr s.toList ++ ['"'])) ++ cs) =
          some (.str (escStr s.toList), ('"' :: (escStr s.toList ++ ['"'])).length) := by
        rw [show ('"' :: (escStr s.toList ++ ['"'])) ++ cs =
              '"' :: (escStr s.toList ++ '"' :: cs) from by simp]
        rw [show ('"' :: (escStr s.toList ++ ['"'])).length =
              (escStr s.toList).length + 2 from by simp]
        exact tryTok_string s.toList cs (prevW prev)
      exact ⟨⟨.str (escStr s.toList), pos, ('"' :: (escStr s.toList ++ ['"'])).length⟩, [],
        scanAux_tok ('"' :: (escStr s.toList ++ ['"'])) (.str (escStr s.toList))
          prev cs pos (by simp) htt, rfl, rfl⟩
  | arr es =>
      simp only [JWF] at hwf
      have h1 := scanAux_tok ['['] .obrack prev ((renderElems es ++ [']']) ++ cs) pos
        (by simp) (tryTok_obrack (prevW prev) _)
      rw [List.singleton_append] at h1
      obtain ⟨tsE, hE, hkE⟩ := renderToksElems es (']' :: cs) (some '[') (pos + 1)
        hwf rfl (sepNeedElems_of_sep es _ rfl)
      have h3 := scanAux_tok [']'] .cbrack (lastOr (renderElems es) (some '[')) cs
        (pos + 1 + (renderElems es).length) (by simp) (tryTok_cbrack _ _)
      rw [List.singleton_append] at h3
      simp only [List.length_singleton] at h1 h3
      refine ⟨⟨.obrack, pos, 1⟩,
        tsE ++ [⟨.cbrack, pos + 1 + (renderElems es).length, 1⟩], ?_, ?_, rfl⟩
      · rw [show renderDoc (.arr es) = '[' :: (renderElems es ++ [']']) from rfl]
        rw [List.cons_append, h1]
        rw [show lastOr ['['] prev = some '[' from rfl]
        rw [List.append_assoc, List.singleton_append, hE, h3]
        rw [show lastOr ('[' :: (renderElems es ++ [']'])) prev =
              lastOr (renderElems es ++ [']']) (some '[') from rfl]
        rw [lastOr_append]
        rw [show lastOr [']'] (lastOr (renderElems es) (some '[')) = some ']' from rfl]
        rw [show pos + ('[' :: (renderElems es ++ [']'])).length =
              pos + 1 + (renderElems es).length + 1 from by simp; omega]
        simp
      · rw [show vtoksK (.arr es) = .obrack :: (vtoksKElems es ++ [.cbrack]) from rfl]
        simp [hkE]
  | obj fs =>
      simp only [JWF] at hwf
      have h1 := scanAux_tok ['\x7b'] .obrace prev ((renderFields fs ++ ['\x7d']) ++ cs) pos
        (by simp) (tryTok_obrace (prevW prev) _)
      rw [List.singleton_append] at h1
      obtain ⟨tsF, hF, hkF⟩ := renderToksFields fs ('\x7d' :: cs) (some '\x7b') (pos + 1)
        hwf rfl (sepNeedFields_of_sep fs _ rfl)
      have h3 := scanAux_tok ['\x7d'] .cbrace (lastOr (renderFields fs) (some '\x7b')) cs
        (pos + 1 + (renderFields fs).length) (by simp) (tryTok_cbrace _ _)
      rw [List.singleton_append] at h3
      simp only [List.length_singleton] at h1 h3
      refine ⟨⟨.obrace, pos, 1⟩,
        tsF ++ [⟨.cbrace, pos + 1 + (renderFields fs).length, 1⟩], ?_, ?_, rfl⟩
      · rw [show renderDoc (.obj fs) = '\x7b' :: (renderFields fs ++ ['\x7d']) from rfl]
        rw [List.cons_append, h1]
        rw [show lastOr ['\x7b'] prev = some '\x7b' from rfl]
        rw [List.append_assoc, List.singleton_append, hF, h3]
        rw [show lastOr ('\x7b' :: (renderFields fs ++ ['\x7d'])) prev =
              lastOr (renderFields fs ++ ['\x7d']) (some '\x7b') from rfl]
        rw [lastOr_append]
        rw [show lastOr ['\x7d'] (lastOr (renderFields fs) (some '\x7b')) = some '\x7d' from rfl]
        rw [show pos + ('\x7b' :: (renderFields fs ++ ['\x7d'])).length =
              pos + 1 + (renderFields fs).length + 1 from by simp; omega]
        simp
      · rw [show vtoksK (.obj fs) = .obrace :: (vtoksKFields fs ++ [.cbrace]) from rfl]
        simp [hkF]

theorem renderToksElems (es : List JValue) (cs : List Char) (prev : Option Char)
    (pos : Nat) (hwf : JWFElems es = true) (hp : prevW prev = false)
    (hn : sepNeedElems es cs = true) :
    ∃ ts : List Tok,
      scanAux 0 prev (renderElems es ++ cs) pos =
        ts ++ scanAux 0 (lastOr (renderElems es) prev) cs
          (pos + (renderElems es).length) ∧
      ts.map Tok.kind = vtoksKElems es := by
  cases es with
  | nil => exact ⟨[], by simp [renderElems, lastOr], rfl⟩
  | cons v vs =>
      cases vs with
      | nil =>
          simp only [JWFElems, JWF, Bool.and_eq_true] at hwf
          obtain ⟨t, ts2, ha, hb, -⟩ := renderToks v cs prev pos hwf.1 hp hn
          exact ⟨t :: ts2, ha, hb⟩
      | cons w ws =>
          rw [show JWFElems (v :: w :: ws) = (JWF v && JWFElems (w :: ws)) from rfl,
            Bool.and_eq_true] at hwf
          obtain ⟨t1, ts1, ha1, hb1, -⟩ := renderToks v
            (',' :: (renderElems (w :: ws) ++ cs)) prev pos hwf.1 hp
            (sepNeed_of_sep v _ rfl)
          obtain ⟨tsE, ha2, hb2⟩ := renderToksElems (w :: ws) cs (some ',')
            (pos + (renderDoc v).length + 1) hwf.2 rfl hn
          refine ⟨(t1 :: ts1) ++ tsE, ?_, ?_⟩
          · rw [show renderElems (v :: w :: ws) =
                  renderDoc v ++ ',' :: renderElems (w :: ws) from rfl]
            rw [List.append_assoc, List.cons_append, ha1]
            rw [scanAux_sep ',' (lastOr (renderDoc v) prev)
                  (renderElems (w :: ws) ++ cs) (pos + (renderDoc v).length)
                  (tryTok_comma _ _)]
            rw [ha2]
            rw [lastOr_append]
            rw [show ∀ p, lastOr (',' :: renderElems (w :: ws)) p =
                  lastOr (renderElems (w :: ws)) (some ',') from fun p => rfl]
            rw [show pos + (renderDoc v ++ ',' :: renderElems (w :: ws)).length =
                  pos + (renderDoc v).length + 1 + (renderElems (w :: ws)).length from by
                simp; omega]
            simp [List.append_assoc]
          · rw [show vtoksKElems (v :: w :: ws) =
                  vtoksK v ++ vtoksKElems (w :: ws) from rfl]
            rw [← hb1, ← hb2]
            simp

theorem renderToksFields (fs : List (String × JValue)) (cs : List Char)
    (prev : Option Char) (pos : Nat) (hwf : JWFFields fs = true)
    (_hp : prevW prev = false) (hn : sepNeedFields fs cs = true) :
    ∃ ts : List Tok,
      scanAux 0 prev (renderFields fs ++ cs) pos =
        ts ++ scanAux 0 (lastOr (renderFields fs) prev) cs
          (pos + (renderFields fs).length) ∧
      ts.map Tok.kind = vtoksKFields fs := by
  cases fs with
  | nil => exact ⟨[], by simp [renderFields, lastOr], rfl⟩
  | cons kv fs =>
      obtain ⟨k, v⟩ := kv
      have hwf2 : JWF v = true ∧ JWFFields fs = true := by
        rw [show JWFFields ((k, v) :: fs) =
              (¬ hasKey fs k && JWF v && JWFFields fs) from rfl,
          Bool.and_eq_true, Bool.and_eq_true] at hwf
        exact ⟨hwf.1.2, hwf.2⟩
      have hstr : ∀ cs2 : List Char,
          scanAux 0 prev (('"' :: (escStr k.toList ++ '"' :: ':' :: cs2))) pos =
            ⟨.str (escStr k.toList), pos, (escStr k.toList).length + 2⟩ ::
              scanAux 0 (some ':') cs2 (pos + ((escStr k.toList).length + 2) + 1) := by
        intro cs2
        have htt : tryTok (prevW prev) (('"' :: (escStr k.toList ++ ['"'])) ++ (':' :: cs2)) =
            some (.str (escStr k.toList), ('"' :: (escStr k.toList ++ ['"'])).length) := by
          rw [show ('"' :: (escStr k.toList ++ ['"'])) ++ (':' :: cs2) =
                '"' :: (escStr k.toList ++ '"' :: ':' :: cs2) from by simp]
          rw [show ('"' :: (escStr k.toList ++ ['"'])).length =
                (escStr k.toList).length + 2 from by simp]
          exact tryTok_string k.toList (':' :: cs2) (prevW prev)
        have h1 := scanAux_tok ('"' :: (escStr k.toList ++ ['"'])) (.str (escStr k.toList))
          prev (':' :: cs2) pos (by simp) htt
        rw [show ('"' :: (escStr k.toList ++ ['"'])) ++ (':' :: cs2) =
              '"' :: (escStr k.toList ++ '"' :: ':' :: cs2) from by simp] at h1
        rw [h1]
        rw [show lastOr ('"' :: (escStr k.toList ++ ['"'])) prev =
              lastOr (escStr k.toList ++ ['"']) (some '"') from rfl]
        rw [lastOr_append]
        rw [show lastOr ['"'] (lastOr (escStr k.toList) (some '"')) = some '"' from rfl]
        rw [scanAux_sep ':' (some '"') cs2 (pos + ('"' :: (escStr k.toList ++ ['"'])).length)
              (tryTok_colon _ _)]
        rw [show ('"' :: (escStr k.toList ++ ['"'])).length =
              (escStr k.toList).length + 2 from by simp]
      cases fs with
      | nil =>
          obtain ⟨t, ts2, ha, hb, -⟩ := renderToks v cs (some ':')
            (pos + ((escStr k.toList).length + 2) + 1) hwf2.1 rfl hn
          refine ⟨⟨.str (escStr k.toList), pos, (escStr k.toList).length + 2⟩ :: (t :: ts2),
            ?_, ?_⟩
          · rw [show renderFields [(k, v)] =
                  '"' :: (escStr k.toList ++ '"' :: ':' :: renderDoc v) from rfl]
            rw [show ('"' :: (escStr k.toList ++ '"' :: ':' :: renderDoc v)) ++ cs =
                  '"' :: (escStr k.toList ++ '"' :: ':' :: (renderDoc v ++ cs)) from by simp]
            rw [hstr (renderDoc v ++ cs), ha]
            rw [show lastOr ('"' :: (escStr k.toList ++ '"' :: ':' :: renderDoc v)) prev =
                  lastOr (renderDoc v) (some ':') from by
                rw [show lastOr ('"' :: (escStr k.toList ++ '"' :: ':' :: renderDoc v)) prev =
                      lastOr (escStr k.toList ++ '"' :: ':' :: renderDoc v) (some '"') from rfl]
                rw [lastOr_append]
                rfl]
            rw [show pos + ('"' :: (escStr k.toList ++ '"' :: ':' :: renderDoc v)).length =
                  pos + ((escStr k.toList).length + 2) + 1 + (renderDoc v).length from by
                simp; omega]
            simp
          · rw [show vtoksKFields [(k, v)] =
                  .str (escStr k.toList) :: vtoksK v from rfl]
            rw [← hb]
            simp
      | cons kv2 fs2 =>
          obtain ⟨t, ts2, ha, hb, -⟩ := renderToks v
            (',' :: (renderFields (kv2 :: fs2) ++ cs)) (some ':')
            (pos + ((escStr k.toList).length + 2) + 1) hwf2.1 rfl
            (sepNeed_of_sep v _ rfl)
          obtain ⟨tsF, ha2, hb2⟩ := renderToksFields (kv2 :: fs2) cs (some ',')
            (pos + ((escStr k.toList).length + 2) + 1 + (renderDoc v).length + 1)
            hwf2.2 rfl hn
          refine ⟨⟨.str (escStr k.toList), pos, (escStr k.toList).length + 2⟩ ::
            ((t :: ts2) ++ tsF), ?_, ?_⟩
          · rw [show renderFields ((k, v) :: kv2 :: fs2) =
                  ('"' :: (escStr k.toList ++ '"' :: ':' :: renderDoc v)) ++
                    ',' :: renderFields (kv2 :: fs2) from rfl]
            rw [show (('"' :: (escStr k.toList ++ '"' :: ':' :: renderDoc v)) ++
                    ',' :: renderFields (kv2 :: fs2)) ++ cs =
                  '"' :: (escStr k.toList ++ '"' :: ':' ::
                    (renderDoc v ++ (',' :: (renderFields (kv2 :: fs2) ++ cs)))) from by
                simp]
            rw [hstr (renderDoc v ++ (',' :: (renderFields (kv2 :: fs2) ++ cs))), ha]
            rw [scanAux_sep ',' (lastOr (renderDoc v) (some ':'))
                  (renderFields (kv2 :: fs2) ++ cs)
                  (pos + ((escStr k.toList).length + 2) + 1 + (renderDoc v).length)
                  (tryTok_comma _ _)]
            rw [ha2]
            rw [show lastOr ((('"' :: (escStr k.toList ++ '"' :: ':' :: renderDoc v)) ++
                    ',' :: renderFields (kv2 :: fs2))) prev =
                  lastOr (renderFields (kv2 :: fs2)) (some ',') from by
                rw [lastOr_append]
                rw [show ∀ p, lastOr (',' :: renderFields (kv2 :: fs2)) p =
                      lastOr (renderFields (kv2 :: fs2)) (some ',') from fun p => rfl]]
            rw [show pos + ((('"' :: (escStr k.toList ++ '"' :: ':' :: renderDoc v)) ++
                    ',' :: renderFields (kv2 :: fs2))).length =
                  pos + ((escStr k.toList).length + 2) + 1 + (renderDoc v).length + 1 +
                    (renderFields (kv2 :: fs2)).length from by
                simp; omega]
            simp [List.append_assoc]
          · rw [show vtoksKFields ((k, v) :: kv2 :: fs2) =
                  (.str (escStr k.toList) :: vtoksK v) ++ vtoksKFields (kv2 :: fs2) from rfl]
            rw [← hb, ← hb2]
            simp

end

/-!
### Replaying a document's tokens through the builder

Feeding the tokens of a canonical rendering to the token loop writes the
rendered value into the top frame, leaves the rest of the stack untouched
and clears the pending key. -/

theorem runToks_append (ts1 ts2 : List Tok) (st : BState) :
    runToks (ts1 ++ ts2) st =
      match runToks ts1 st with
      | (st1, none) => runToks ts2 st1
      | (st1, some i) => (st1, some i) := by
  induction ts1 generalizing st with
  | nil => rfl
  | cons t ts ih =>
      rw [List.cons_append]
      cases h : stepTok t st with
      | inl st2 => simp only [runToks, h, ih st2]
      | inr i => simp only [runToks, h]

theorem install_pushSlot (f : Frame) (key : Option String) (c : PCont) :
    install f ⟨c, pushSlot f key⟩ = writeVal f key (finalize c) := by
  obtain ⟨fc, fslot⟩ := f
  cases fc <;> cases key <;> rfl

theorem setField_append (fs : List (String × JValue)) (k : String) (v : JValue)
    (h : hasKey fs k = false) : setField fs k v = fs ++ [(k, v)] := by
  induction fs with
  | nil => rfl
  | cons kv fs ih =>
      obtain ⟨k0, v0⟩ := kv
      rw [show hasKey ((k0, v0) :: fs) k = (k0 = k || hasKey fs k) from rfl,
        Bool.or_eq_false_iff] at h
      have h1 : ¬ k0 = k := by simpa using h.1
      simp [setField, h1, ih h.2]

theorem hasKey_append (a b : List (String × JValue)) (k : String) :
    hasKey (a ++ b) k = (hasKey a k || hasKey b k) := by
  induction a with
  | nil => simp [hasKey]
  | cons kv a ih =>
      obtain ⟨k0, v0⟩ := kv
      simp [hasKey, ih, Bool.or_assoc]

theorem hasKey_false_mem (fs : List (String × JValue)) (k : String)
    (h : hasKey fs k = false) : ∀ kv ∈ fs, ¬ (kv.1 = k) := by
  induction fs with
  | nil => intro kv hm; simp at hm
  | cons kv0 fs ih =>
      obtain ⟨k0, v0⟩ := kv0
      rw [show hasKey ((k0, v0) :: fs) k = (k0 = k || hasKey fs k) from rfl,
        Bool.or_eq_false_iff] at h
      intro kv hm
      rcases List.mem_cons.mp hm with hm | hm
      · subst hm; simpa using h.1
      · exact ih h.2 kv hm

/-- The pending-key condition at a value position: inside an object a key
has always just been consumed. -/
def keyOk (f : Frame) (key : Option String) : Prop :=
  match f.cont with
  | .parr _ => True
  | .pobj _ => key.isSome = true

theorem strTokContent (l : List Char) :
    String.mk (if (escStr l).contains '\\' then unescape (escStr l) else escStr l) =
      String.mk l :=
  congrArg String.mk (strContent l)

theorem strTokContent2 (s : String) :
    String.mk (if (escStr s.toList).contains '\\' then unescape (escStr s.toList)
      else escStr s.toList) = s :=
  strTokContent s.toList

mutual

theorem buildVal (v : JValue) (hwf : JWF v = true) (ts : List Tok)
    (hk : ts.map Tok.kind = vtoksK v) (f : Frame) (rest : List Frame)
    (key : Option String) (root? : Option JValue) (hkey : keyOk f key) :
    runToks ts ⟨f :: rest, key, root?⟩ =
      (⟨writeVal f key v :: rest, none, root?⟩, none) := by
  cases v with
  | undef => simp [JWF] at hwf
  | null =>
      rw [show vtoksK .null = [.litNull] from rfl, List.map_eq_cons_iff] at hk
      obtain ⟨t, ts2, rfl, hkt, hts2⟩ := hk
      have hts2e : ts2 = [] := by simpa using hts2
      subst hts2e
      simp [runToks, stepTok, hkt]
  | bool b =>
      cases b with
      | true =>
          rw [show vtoksK (.bool true) = [.litTrue] from rfl, List.map_eq_cons_iff] at hk
          obtain ⟨t, ts2, rfl, hkt, hts2⟩ := hk
          have hts2e : ts2 = [] := by simpa using hts2
          subst hts2e
          simp [runToks, stepTok, hkt]
      | false =>
          rw [show vtoksK (.bool false) = [.litFalse] from rfl, List.map_eq_cons_iff] at hk
          obtain ⟨t, ts2, rfl, hkt, hts2⟩ := hk
          have hts2e : ts2 = [] := by simpa using hts2
          subst hts2e
          simp [runToks, stepTok, hkt]
  | num raw =>
      rw [show vtoksK (.num raw) = [.num raw.toList] from rfl, List.map_eq_cons_iff] at hk
      obtain ⟨t, ts2, rfl, hkt, hts2⟩ := hk
      have hts2e : ts2 = [] := by simpa using hts2
      subst hts2e
      simp [runToks, stepTok, hkt]
  | str s =>
      rw [show vtoksK (.str s) = [.str (escStr s.toList)] from rfl,
        List.map_eq_cons_iff] at hk
      obtain ⟨t, ts2, rfl, hkt, hts2⟩ := hk
      have hts2e : ts2 = [] := by simpa using hts2
      subst hts2e
      cases key with
      | none =>
          obtain ⟨fc, fslot⟩ := f
          cases fc with
          | parr es =>
              simp only [runToks, stepTok, hkt, strTokContent2]
          | pobj fs => simp [keyOk] at hkey
      | some k =>
          simp only [runToks, stepTok, hkt, strTokContent2]
  | arr es =>
      simp only [JWF] at hwf
      rw [show vtoksK (.arr es) = .obrack :: (vtoksKElems es ++ [.cbrack]) from rfl,
        List.map_eq_cons_iff] at hk
      obtain ⟨t0, ts', rfl, hk0, hts'⟩ := hk
      rw [List.map_eq_append_iff] at hts'
      obtain ⟨tsE, tsC, rfl, hkE, hkC⟩ := hts'
      rw [List.map_eq_cons_iff] at hkC
      obtain ⟨tc, ts2, rfl, hkc, hts2⟩ := hkC
      have hts2e : ts2 = [] := by simpa using hts2
      subst hts2e
      rw [runToks]
      simp only [stepTok, hk0]
      rw [runToks_append,
        buildElems es hwf tsE hkE [] (pushSlot f key) (f :: rest) root?]
      simp only [runToks, stepTok, hkc, popFrame, List.nil_append]
      rw [install_pushSlot]
      rfl
  | obj fs =>
      simp only [JWF] at hwf
      rw [show vtoksK (.obj fs) = .obrace :: (vtoksKFields fs ++ [.cbrace]) from rfl,
        List.map_eq_cons_iff] at hk
      obtain ⟨t0, ts', rfl, hk0, hts'⟩ := hk
      rw [List.map_eq_append_iff] at hts'
      obtain ⟨tsF, tsC, rfl, hkF, hkC⟩ := hts'
      rw [List.map_eq_cons_iff] at hkC
      obtain ⟨tc, ts2, rfl, hkc, hts2⟩ := hkC
      have hts2e : ts2 = [] := by simpa using hts2
      subst hts2e
      rw [runToks]
      simp only [stepTok, hk0]
      rw [runToks_append,
        buildFields fs hwf tsF hkF [] (pushSlot f key) (f :: rest) root?
          (fun kv _ => rfl)]
      simp only [runToks, stepTok, hkc, popFrame, List.nil_append]
      rw [install_pushSlot]
      rfl

theorem buildElems (es : List JValue) (hwf : JWFElems es = true) (ts : List Tok)
    (hk : ts.map Tok.kind = vtoksKElems es) (acc : List JValue) (slot : Slot)
    (rest : List Frame) (root? : Option JValue) :
    runToks ts ⟨⟨.parr acc, slot⟩ :: rest, none, root?⟩ =
      (⟨⟨.parr (acc ++ es), slot⟩ :: rest, none, root?⟩, none) := by
  cases es with
  | nil =>
      rw [show vtoksKElems ([] : List JValue) = [] from rfl] at hk
      have hts : ts = [] := by simpa using hk
      subst hts
      simp [runToks]
  | cons v vs =>
      cases vs with
      | nil =>
          rw [show JWFElems [v] = (JWF v && JWFElems []) from rfl,
            Bool.and_eq_true] at hwf
          rw [show vtoksKElems [v] = vtoksK v from rfl] at hk
          rw [buildVal v hwf.1 ts hk ⟨.parr acc, slot⟩ rest none root? trivial]
          rfl
      | cons w ws =>
          rw [show JWFElems (v :: w :: ws) = (JWF v && JWFElems (w :: ws)) from rfl,
            Bool.and_eq_true] at hwf
          rw [show vtoksKElems (v :: w :: ws) = vtoksK v ++ vtoksKElems (w :: ws) from rfl,
            List.map_eq_append_iff] at hk
          obtain ⟨ts1, ts2, rfl, hk1, hk2⟩ := hk
          rw [runToks_append,
            buildVal v hwf.1 ts1 hk1 ⟨.parr acc, slot⟩ rest none root? trivial]
          show runToks ts2 ⟨writeVal ⟨.parr acc, slot⟩ none v :: rest, none, root?⟩ = _
          rw [show writeVal ⟨.parr acc, slot⟩ none v = ⟨.parr (acc ++ [v]), slot⟩ from rfl]
          rw [buildElems (w :: ws) hwf.2 ts2 hk2 (acc ++ [v]) slot rest root?]
          simp

theorem buildFields (fs : List (String × JValue)) (hwf : JWFFields fs = true)
    (ts : List Tok) (hk : ts.map Tok.kind = vtoksKFields fs)
    (acc : List (String × JValue)) (slot : Slot) (rest : List Frame)
    (root? : Option JValue) (hacc : ∀ kv ∈ fs, hasKey acc kv.1 = false) :
    runToks ts ⟨⟨.pobj acc, slot⟩ :: rest, none, root?⟩ =
      (⟨⟨.pobj (acc ++ fs), slot⟩ :: rest, none, root?⟩, none) := by
  cases fs with
  | nil =>
      rw [show vtoksKFields ([] : List (String × JValue)) = [] from rfl] at hk
      have hts : ts = [] := by simpa using hk
      subst hts
      simp [runToks]
  | cons kv fs =>
      obtain ⟨k, v⟩ := kv
      rw [show JWFFields ((k, v) :: fs) = (¬ hasKey fs k && JWF v && JWFFields fs) from rfl,
        Bool.and_eq_true, Bool.and_eq_true] at hwf
      have hKacc : hasKey acc k = false := hacc (k, v) (by simp)
      cases fs with
      | nil =>
          rw [show vtoksKFields [(k, v)] = .str (escStr k.toList) :: vtoksK v from rfl,
            List.map_eq_cons_iff] at hk
          obtain ⟨t0, ts', rfl, hk0, hts'⟩ := hk
          rw [runToks]
          simp only [stepTok, hk0, strTokContent]
          rw [buildVal v hwf.1.2 ts' hts' ⟨.pobj acc, slot⟩ rest (some (String.mk k.toList))
            root? rfl]
          rw [show String.mk k.toList = k from rfl]
          rw [show writeVal ⟨.pobj acc, slot⟩ (some k) v = ⟨.pobj (setField acc k v), slot⟩
            from rfl]
          rw [setField_append acc k v hKacc]
      | cons kv2 fs2 =>
          rw [show vtoksKFields ((k, v) :: kv2 :: fs2) =
                (.str (escStr k.toList) :: vtoksK v) ++ vtoksKFields (kv2 :: fs2) from rfl,
            List.map_eq_append_iff] at hk
          obtain ⟨tsA, tsB, rfl, hkA, hkB⟩ := hk
          rw [List.map_eq_cons_iff] at hkA
          obtain ⟨t0, tsV, rfl, hk0, hkV⟩ := hkA
          rw [List.cons_append, runToks]
          simp only [stepTok, hk0, strTokContent]
          rw [runToks_append,
            buildVal v hwf.1.2 tsV hkV ⟨.pobj acc, slot⟩ rest (some (String.mk k.toList))
              root? rfl]
          rw [show String.mk k.toList = k from rfl]
          simp only []
          rw [show writeVal ⟨.pobj acc, slot⟩ (some k) v = ⟨.pobj (setField acc k v), slot⟩
            from rfl]
          rw [setField_append acc k v hKacc]
          have hacc2 : ∀ kv3 ∈ (kv2 :: fs2), hasKey (acc ++ [(k, v)]) kv3.1 = false := by
            intro kv3 hm
            rw [hasKey_append]
            have h1 : hasKey acc kv3.1 = false := hacc kv3 (List.mem_cons_of_mem _ hm)
            have h2 : ¬ (kv3.1 = k) := by
              have := hasKey_false_mem (kv2 :: fs2) k (by simpa using hwf.1.1) kv3 hm
              exact this
            have h3 : hasKey [(k, v)] kv3.1 = false := by
              simp [hasKey]
              exact fun he => h2 he.symm
            rw [h1, h3]
            rfl
          rw [buildFields (kv2 :: fs2) hwf.2 tsB hkB (acc ++ [(k, v)]) slot rest root? hacc2]
          simp

end

/-!
### Decoding a rendered document -/

/-- Token kinds that fire the `cont == undefined` guard when the stack is
empty (everything except the close tokens, which `shift` an empty stack as
a no-op). -/
def openOrValue : TokKind → Bool
  | .cbrack => false
  | .cbrace => false
  | _ => true

theorem stepTok_emptyStack (t : Tok) (key : Option String) (r : Option JValue)
    (h : openOrValue t.kind = true) :
    stepTok t ⟨[], key, r⟩ = .inr t.start := by
  obtain ⟨k, s, n⟩ := t
  cases k <;> first
    | rfl
    | simp [openOrValue] at h

/-- Whether the leftover token list lets a successful decode return: no
token at all, or a first token that fires the guard. -/
def restOk : List Tok → Bool
  | [] => true
  | t :: _ => openOrValue t.kind

/-- The offset a successful decode reports, from the leftover tokens. -/
def restIdx (json : List Char) : List Tok → Nat
  | [] => json.length
  | t :: _ => t.start

/-- The reviver application of a successful `jsonRawDecode`. -/
def applyRev : Option (String → JValue → JValue) → JValue → JValue
  | none, v => v
  | some r, v => walk r v ""

theorem renderNE (v : JValue) (hwf : JWF v = true) : renderDoc v ≠ [] := by
  cases v with
  | undef => simp [JWF] at hwf
  | null => simp [renderDoc]
  | bool b => cases b <;> simp [renderDoc]
  | num raw =>
      simp only [JWF] at hwf
      intro he
      rw [show renderDoc (.num raw) = raw.toList from rfl] at he
      rw [he] at hwf
      simp [NumWF, intPart] at hwf
  | str s => simp [renderDoc]
  | arr es => simp [renderDoc]
  | obj fs => simp [renderDoc]

theorem prevW_lastOr_container (v : JValue) (p : Option Char)
    (hc : isContainer v = true) : prevW (lastOr (renderDoc v) p) = false := by
  cases v with
  | arr es =>
      rw [show renderDoc (.arr es) = '[' :: (renderElems es ++ [']']) from rfl]
      rw [show lastOr ('[' :: (renderElems es ++ [']'])) p =
            lastOr (renderElems es ++ [']']) (some '[') from rfl]
      rw [lastOr_append]
      rfl
  | obj fs =>
      rw [show renderDoc (.obj fs) = '\x7b' :: (renderFields fs ++ ['\x7d']) from rfl]
      rw [show lastOr ('\x7b' :: (renderFields fs ++ ['\x7d'])) p =
            lastOr (renderFields fs ++ ['\x7d']) (some '\x7b') from rfl]
      rw [lastOr_append]
      rfl
  | undef => simp [isContainer] at hc
  | null => simp [isContainer] at hc
  | bool b => simp [isContainer] at hc
  | num raw => simp [isContainer] at hc
  | str s => simp [isContainer] at hc

theorem sepNeed_isCont (v : JValue) (cs : List Char) (hc : isContainer v = true) :
    sepNeed v cs = true := by
  cases v <;> first | rfl | simp [isContainer] at hc

theorem vtoksK_head_open (v : JValue) (hwf : JWF v = true) (k : TokKind)
    (ks : List TokKind) (h : vtoksK v = k :: ks) : openOrValue k = true := by
  cases v with
  | undef => simp [JWF] at hwf
  | null => cases h; rfl
  | bool b => cases b <;> (cases h; rfl)
  | num raw => cases h; rfl
  | str s => cases h; rfl
  | arr es =>
      rw [show vtoksK (.arr es) = .obrack :: (vtoksKElems es ++ [.cbrack]) from rfl] at h
      cases h; rfl
  | obj fs =>
      rw [show vtoksK (.obj fs) = .obrace :: (vtoksKFields fs ++ [.cbrace]) from rfl] at h
      cases h; rfl

theorem runToks_rest (restToks : List Tok) (key : Option String) (r : Option JValue)
    (hok : restOk restToks = true) :
    runToks restToks ⟨[], key, r⟩ =
      (⟨[], key, r⟩, match restToks with | [] => none | t :: _ => some t.start) := by
  cases restToks with
  | nil => rfl
  | cons t ts =>
      rw [runToks, stepTok_emptyStack t key r hok]

theorem rawDecode_container (v : JValue) (cs : List Char)
    (rv : Option (String → JValue → JValue)) (hwf : JWF v = true)
    (hc : isContainer v = true) (restToks : List Tok)
    (hrest : scanAux 0 (lastOr (renderDoc v) none) cs (renderDoc v).length = restToks)
    (hok : restOk restToks = true) :
    jsonRawDecode (renderDoc v ++ cs) rv =
      .pair (applyRev rv v) (restIdx (renderDoc v ++ cs) restToks) := by
  obtain ⟨t, ts2, heq, hkinds, hstart⟩ := renderToks v cs none 0 hwf rfl
    (sepNeed_isCont v cs hc)
  rw [show (0 : Nat) + (renderDoc v).length = (renderDoc v).length from by omega,
    hrest] at heq
  cases v with
  | undef => simp [JWF] at hwf
  | null => simp [isContainer] at hc
  | bool b => simp [isContainer] at hc
  | num raw => simp [isContainer] at hc
  | str s => simp [isContainer] at hc
  | arr es =>
      simp only [JWF] at hwf
      rw [show vtoksK (.arr es) = .obrack :: (vtoksKElems es ++ [.cbrack]) from rfl,
        List.map_cons] at hkinds
      obtain ⟨tk, tstart, tlen⟩ := t
      simp only [Tok.start] at hstart
      subst hstart
      simp only [Tok.kind] at hkinds
      have hk0 : tk = .obrack := (List.cons_eq_cons.mp hkinds).1
      have hktail := (List.cons_eq_cons.mp hkinds).2
      subst hk0
      rw [List.map_eq_append_iff] at hktail
      obtain ⟨tsE, tsC, rfl, hkE, hkC⟩ := hktail
      rw [List.map_eq_cons_iff] at hkC
      obtain ⟨tc, tz, rfl, hkc, htz⟩ := hkC
      have htze : tz = [] := by simpa using htz
      subst htze
      have htok : tokenize (renderDoc (.arr es) ++ cs) =
          ⟨.obrack, 0, tlen⟩ :: ((tsE ++ [tc]) ++ restToks) := by
        rw [show tokenize (renderDoc (.arr es) ++ cs) =
              scanAux 0 none (renderDoc (.arr es) ++ cs) 0 from rfl, heq,
          List.cons_append]
      have hrun : runToks ((tsE ++ [tc]) ++ restToks)
          ⟨[⟨.parr [], .rootSlot⟩], none, none⟩ =
          (⟨[], none, some (.arr es)⟩,
            match restToks with | [] => none | t :: _ => some t.start) := by
        have hA : runToks (tsE ++ [tc]) ⟨[⟨.parr [], .rootSlot⟩], none, none⟩ =
            (⟨[], none, some (.arr es)⟩, none) := by
          rw [runToks_append, buildElems es hwf tsE hkE [] .rootSlot [] none]
          show runToks [tc] ⟨[⟨.parr ([] ++ es), .rootSlot⟩], none, none⟩ = _
          rw [runToks]
          simp only [stepTok, hkc, popFrame, finalize]
          simp [runToks]
        rw [runToks_append, hA]
        show runToks restToks ⟨[], none, some (.arr es)⟩ = _
        rw [runToks_rest restToks none (some (.arr es)) hok]
        cases restToks <;> rfl
      simp only [jsonRawDecode, htok, runList, rootCont, isPrimRoot, hrun]
      cases rv <;> cases restToks <;> simp [applyRev, restIdx, contResult]
  | obj fs =>
      simp only [JWF] at hwf
      rw [show vtoksK (.obj fs) = .obrace :: (vtoksKFields fs ++ [.cbrace]) from rfl,
        List.map_cons] at hkinds
      obtain ⟨tk, tstart, tlen⟩ := t
      simp only [Tok.start] at hstart
      subst hstart
      simp only [Tok.kind] at hkinds
      have hk0 : tk = .obrace := (List.cons_eq_cons.mp hkinds).1
      have hktail := (List.cons_eq_cons.mp hkinds).2
      subst hk0
      rw [List.map_eq_append_iff] at hktail
      obtain ⟨tsF, tsC, rfl, hkF, hkC⟩ := hktail
      rw [List.map_eq_cons_iff] at hkC
      obtain ⟨tc, tz, rfl, hkc, htz⟩ := hkC
      have htze : tz = [] := by simpa using htz
      subst htze
      have htok : tokenize (renderDoc (.obj fs) ++ cs) =
          ⟨.obrace, 0, tlen⟩ :: ((tsF ++ [tc]) ++ restToks) := by
        rw [show tokenize (renderDoc (.obj fs) ++ cs) =
              scanAux 0 none (renderDoc (.obj fs) ++ cs) 0 from rfl, heq,
          List.cons_append]
      have hrun : runToks ((tsF ++ [tc]) ++ restToks)
          ⟨[⟨.pobj [], .rootSlot⟩], none, none⟩ =
          (⟨[], none, some (.obj fs)⟩,
            match restToks with | [] => none | t :: _ => some t.start) := by
        have hA : runToks (tsF ++ [tc]) ⟨[⟨.pobj [], .rootSlot⟩], none, none⟩ =
            (⟨[], none, some (.obj fs)⟩, none) := by
          rw [runToks_append,
            buildFields fs hwf tsF hkF [] .rootSlot [] none (fun kv _ => rfl)]
          show runToks [tc] ⟨[⟨.pobj ([] ++ fs), .rootSlot⟩], none, none⟩ = _
          rw [runToks]
          simp only [stepTok, hkc, popFrame, finalize]
          simp [runToks]
        rw [runToks_append, hA]
        show runToks restToks ⟨[], none, some (.obj fs)⟩ = _
        rw [runToks_rest restToks none (some (.obj fs)) hok]
        cases restToks <;> rfl
      simp only [jsonRawDecode, htok, runList, rootCont, isPrimRoot, hrun]
      cases rv <;> cases restToks <;> simp [applyRev, restIdx, contResult]

theorem vtoksK_scalar (v : JValue) (hwf : JWF v = true) (hs : isContainer v = false) :
    ∃ k, vtoksK v = [k] ∧ isPrimRoot k = true ∧ rootCont k = .parr [] ∧
      (∀ (rest : List Tok) (s n : Nat), runList (⟨k, s, n⟩ :: rest) = ⟨k, s, n⟩ :: rest) := by
  cases v with
  | undef => simp [JWF] at hwf
  | arr es => simp [isContainer] at hs
  | obj fs => simp [isContainer] at hs
  | null => exact ⟨.litNull, rfl, rfl, rfl, fun _ _ _ => rfl⟩
  | bool b =>
      cases b with
      | true => exact ⟨.litTrue, rfl, rfl, rfl, fun _ _ _ => rfl⟩
      | false => exact ⟨.litFalse, rfl, rfl, rfl, fun _ _ _ => rfl⟩
  | num raw => exact ⟨.num raw.toList, rfl, rfl, rfl, fun _ _ _ => rfl⟩
  | str s => exact ⟨.str (escStr s.toList), rfl, rfl, rfl, fun _ _ _ => rfl⟩

theorem rawDecode_scalar (v : JValue) (rv : Option (String → JValue → JValue))
    (hwf : JWF v = true) (hs : isContainer v = false) :
    jsonRawDecode (renderDoc v) rv = .pair (applyRev rv v) (renderDoc v).length := by
  obtain ⟨t, ts2, heq, hkinds, hstart⟩ := renderToks v [] none 0 hwf rfl
    (sepNeed_of_sep v [] rfl)
  rw [List.append_nil,
    show scanAux 0 (lastOr (renderDoc v) none) [] (0 + (renderDoc v).length) =
      ([] : List Tok) from rfl,
    List.append_nil] at heq
  obtain ⟨k, hvk, hprim, hroot, hrl⟩ := vtoksK_scalar v hwf hs
  rw [hvk, List.map_cons] at hkinds
  obtain ⟨tk, tstart, tlen⟩ := t
  simp only [Tok.start] at hstart
  subst hstart
  simp only [Tok.kind] at hkinds
  have hk0 : tk = k := (List.cons_eq_cons.mp hkinds).1
  have hts2 : ts2 = [] := by
    have := (List.cons_eq_cons.mp hkinds).2
    simpa using this
  subst hk0
  subst hts2
  have htok : tokenize (renderDoc v) = [⟨tk, 0, tlen⟩] := by
    rw [show tokenize (renderDoc v) = scanAux 0 none (renderDoc v) 0 from rfl, heq]
  have hrun : runToks [⟨tk, 0, tlen⟩] ⟨[⟨.parr [], .rootSlot⟩], none, none⟩ =
      (⟨[⟨.parr [v], .rootSlot⟩], none, none⟩, none) := by
    have := buildVal v hwf [⟨tk, 0, tlen⟩] (by simp [hvk]) ⟨.parr [], .rootSlot⟩ []
      none none trivial
    simpa using this
  simp only [jsonRawDecode, htok, hrl, hroot, hprim, hrun, if_true]
  cases rv <;> simp [applyRev, primResult]

/-!
### The streaming driver over concatenated documents -/

/-- Concatenation of the canonical renderings, with no separators. -/
def concatR : List JValue → List Char
  | [] => []
  | v :: vs => renderDoc v ++ concatR vs

/-- Wellformedness of a document sequence for separator-free streaming: at
least one document, every document wellformed, and every document except
the last a container (a trailing scalar document would otherwise fuse with
the next document's first token). -/
def DocsOK : List JValue → Bool
  | [] => false
  | [v] => JWF v
  | v :: vs => JWF v && isContainer v && DocsOK vs

theorem DocsOK_head (w : JValue) (ws : List JValue) (h : DocsOK (w :: ws) = true) :
    JWF w = true := by
  cases ws with
  | nil => exact h
  | cons x xs =>
      rw [show DocsOK (w :: x :: xs) = (JWF w && isContainer w && DocsOK (x :: xs))
          from rfl, Bool.and_eq_true, Bool.and_eq_true] at h
      exact h.1.1

theorem jsonDecode_docs (docs : List JValue) (acc : List JValue)
    (h : DocsOK docs = true) :
    jsonDecode docs.length (concatR docs) acc = some (acc ++ docs) := by
  induction docs generalizing acc with
  | nil => simp [DocsOK] at h
  | cons v vs ih =>
      cases vs with
      | nil =>
          rw [show DocsOK [v] = JWF v from rfl] at h
          rw [show concatR [v] = renderDoc v ++ concatR [] from rfl,
            show concatR ([] : List JValue) = [] from rfl, List.append_nil]
          have hraw : jsonRawDecode (renderDoc v) none = .pair v (renderDoc v).length := by
            by_cases hcont : isContainer v = true
            · have := rawDecode_container v [] none h hcont [] rfl rfl
              rw [List.append_nil] at this
              simpa [applyRev, restIdx] using this
            · have := rawDecode_scalar v none h (by simpa using hcont)
              simpa [applyRev] using this
          simp only [List.length_cons, List.length_nil, jsonDecode, hraw]
          simp [List.drop_length]
      | cons w ws =>
          rw [show DocsOK (v :: w :: ws) = (JWF v && isContainer v && DocsOK (w :: ws))
              from rfl, Bool.and_eq_true, Bool.and_eq_true] at h
          obtain ⟨⟨hwfv, hcv⟩, hdocs⟩ := h
          have hwfw : JWF w = true := DocsOK_head w ws hdocs
          have hsn : sepNeed w (concatR ws) = true := by
            cases ws with
            | nil => exact sepNeed_of_sep w _ rfl
            | cons x xs =>
                have hcw : isContainer w = true := by
                  rw [show DocsOK (w :: x :: xs) =
                        (JWF w && isContainer w && DocsOK (x :: xs)) from rfl,
                    Bool.and_eq_true, Bool.and_eq_true] at hdocs
                  exact hdocs.1.2
                exact sepNeed_isCont w _ hcw
          obtain ⟨t, ts2, heqW, hkW, hstW⟩ := renderToks w (concatR ws)
            (lastOr (renderDoc v) none) (renderDoc v).length hwfw
            (prevW_lastOr_container v none hcv) hsn
          have hrest : scanAux 0 (lastOr (renderDoc v) none) (concatR (w :: ws))
              (renderDoc v).length =
              (t :: ts2) ++ scanAux 0 (lastOr (renderDoc w) (lastOr (renderDoc v) none))
                (concatR ws) ((renderDoc v).length + (renderDoc w).length) := by
            rw [show concatR (w :: ws) = renderDoc w ++ concatR ws from rfl]
            exact heqW
          have hok : restOk ((t :: ts2) ++
              scanAux 0 (lastOr (renderDoc w) (lastOr (renderDoc v) none))
                (concatR ws) ((renderDoc v).length + (renderDoc w).length)) = true := by
            show openOrValue t.kind = true
            exact vtoksK_head_open w hwfw t.kind (ts2.map Tok.kind)
              (by rw [← hkW]; rfl)
          have hraw := rawDecode_container v (concatR (w :: ws)) none hwfv hcv _ hrest hok
          have hidx : restIdx (renderDoc v ++ concatR (w :: ws))
              ((t :: ts2) ++ scanAux 0 (lastOr (renderDoc w) (lastOr (renderDoc v) none))
                (concatR ws) ((renderDoc v).length + (renderDoc w).length)) =
              (renderDoc v).length := by
            show t.start = _
            exact hstW
          rw [hidx] at hraw
          rw [show concatR (v :: w :: ws) = renderDoc v ++ concatR (w :: ws) from rfl]
          rw [show (v :: w :: ws).length = (w :: ws).length + 1 from rfl]
          simp only [jsonDecode, hraw, applyRev]
          rw [List.drop_left]
          have hne : (concatR (w :: ws)).isEmpty = false := by
            rw [show concatR (w :: ws) = renderDoc w ++ concatR ws from rfl]
            cases hq : renderDoc w with
            | nil => exact absurd hq (renderNE w hwfw)
            | cons c cs => simp [List.isEmpty]
          rw [hne]
          simp only [Bool.false_eq_true, if_false]
          show jsonDecode (w :: ws).length (concatR (w :: ws)) (acc ++ [v]) =
            some (acc ++ v :: w :: ws)
          rw [ih (acc ++ [v]) hdocs]
          simp

/-!
### Revivers: deletion and replacement -/

/-- A reviver that deletes one key (returns `undefined` for it) and keeps
every other value. -/
def delRev (kdel : String) : String → JValue → JValue :=
  fun k v => if k = kdel then .undef else v

/-- An object whose values are all scalars. -/
def Flat : List (String × JValue) → Bool
  | [] => true
  | (_, v) :: fs => !(isContainer v) && Flat fs

theorem walk_scalar (r : String → JValue → JValue) (v : JValue) (k : String)
    (h : isContainer v = false) : walk r v k = r k v := by
  cases v <;> first | rfl | simp [isContainer] at h

theorem walkFields_delRev (kdel : String) (fs : List (String × JValue))
    (hwf : JWFFields fs = true) (hflat : Flat fs = true) :
    walkFields (delRev kdel) fs = fs.filter (fun kv => decide (kv.1 ≠ kdel)) := by
  induction fs with
  | nil => rfl
  | cons kv fs ih =>
      obtain ⟨k, v⟩ := kv
      rw [show JWFFields ((k, v) :: fs) = (¬ hasKey fs k && JWF v && JWFFields fs) from rfl,
        Bool.and_eq_true, Bool.and_eq_true] at hwf
      rw [show Flat ((k, v) :: fs) = (!(isContainer v) && Flat fs) from rfl,
        Bool.and_eq_true] at hflat
      have hscal : isContainer v = false := by simpa using hflat.1
      have hwalk : walk (delRev kdel) v k = if k = kdel then .undef else v := by
        rw [walk_scalar (delRev kdel) v k hscal]
        rfl
      rw [show walkFields (delRev kdel) ((k, v) :: fs) =
            (match walk (delRev kdel) v k with
             | .undef => walkFields (delRev kdel) fs
             | v2 => (k, v2) :: walkFields (delRev kdel) fs) from rfl]
      by_cases hk : k = kdel
      · rw [hwalk, if_pos hk]
        show walkFields (delRev kdel) fs = _
        rw [ih hwf.2 hflat.2]
        simp [List.filter_cons, hk]
      · rw [hwalk, if_neg hk]
        cases v with
        | undef => exact absurd hwf.1.2 (by simp [JWF])
        | arr es => simp [isContainer] at hscal
        | obj gs => simp [isContainer] at hscal
        | null =>
            show (k, JValue.null) :: walkFields (delRev kdel) fs = _
            rw [ih hwf.2 hflat.2]
            simp [List.filter_cons, hk]
        | bool b =>
            show (k, JValue.bool b) :: walkFields (delRev kdel) fs = _
            rw [ih hwf.2 hflat.2]
            simp [List.filter_cons, hk]
        | num raw =>
            show (k, JValue.num raw) :: walkFields (delRev kdel) fs = _
            rw [ih hwf.2 hflat.2]
            simp [List.filter_cons, hk]
        | str s =>
            show (k, JValue.str s) :: walkFields (delRev kdel) fs = _
            rw [ih hwf.2 hflat.2]
            simp [List.filter_cons, hk]

/-- The intermediate states of a top-level-primitive decode: the single
value token survives `runList`, the root container is the single-element
wrapper array, the loop leaves the scalar inside the wrapper, and the
primitive completion unwraps it. -/
theorem scalar_decode_parts (v : JValue) (hwf : JWF v = true)
    (hs : isContainer v = false) :
    ∃ t0 ts,
      tokenize (renderDoc v) = t0 :: ts ∧
      isPrimRoot t0.kind = true ∧
      rootCont t0.kind = .parr [] ∧
      runToks (runList (tokenize (renderDoc v))) ⟨[⟨.parr [], .rootSlot⟩], none, none⟩ =
        (⟨[⟨.parr [v], .rootSlot⟩], none, none⟩, none) ∧
      primResult ⟨[⟨.parr [v], .rootSlot⟩], none, none⟩ = some v := by
  obtain ⟨t, ts2, heq, hkinds, hstart⟩ := renderToks v [] none 0 hwf rfl
    (sepNeed_of_sep v [] rfl)
  rw [List.append_nil,
    show scanAux 0 (lastOr (renderDoc v) none) [] (0 + (renderDoc v).length) =
      ([] : List Tok) from rfl,
    List.append_nil] at heq
  obtain ⟨k, hvk, hprim, hroot, hrl⟩ := vtoksK_scalar v hwf hs
  rw [hvk, List.map_cons] at hkinds
  obtain ⟨tk, tstart, tlen⟩ := t
  simp only [Tok.start] at hstart
  subst hstart
  simp only [Tok.kind] at hkinds
  have hk0 : tk = k := (List.cons_eq_cons.mp hkinds).1
  have hts2 : ts2 = [] := by
    have := (List.cons_eq_cons.mp hkinds).2
    simpa using this
  subst hk0
  subst hts2
  have htok : tokenize (renderDoc v) = [⟨tk, 0, tlen⟩] := by
    rw [show tokenize (renderDoc v) = scanAux 0 none (renderDoc v) 0 from rfl, heq]
  refine ⟨⟨tk, 0, tlen⟩, [], htok, hprim, hroot, ?_, rfl⟩
  rw [htok, hrl]
  have := buildVal v hwf [⟨tk, 0, tlen⟩] (by simp [hvk]) ⟨.parr [], .rootSlot⟩ []
    none none trivial
  simpa using this

/-- C2 (counterexample): the two valid documents `1` and `1` concatenate to
the buffer `11`, which the driver decodes as the single value `11` — one
value instead of two, so the claimed per-document decoding fails on scalar
document sequences. -/
theorem claim_C2_counterexample :
    concatR [.num "1", .num "1"] = "11".toList ∧
    JWF (.num "1") = true ∧
    jsonDecode 2 (concatR [.num "1", .num "1"]) [] = some [.num "11"] ∧
    ([(JValue.num "11")] : List JValue).length ≠
      ([.num "1", .num "1"] : List JValue).length :=
  ⟨rfl, by decide, rfl, by decide⟩

/-- C2 (amended): for every nonempty sequence of wellformed documents in
which every document except the last is a container, the driver decodes
the separator-free concatenation into exactly that sequence of values —
one value per document, the entire buffer consumed — within fuel equal to
the number of documents. -/
theorem claim_C2 (docs : List JValue) (h : DocsOK docs = true) :
    jsonDecode docs.length (concatR docs) [] = some docs := by
  simpa using jsonDecode_docs docs [] h

theorem claim_C2_witness :
    DocsOK [.arr [], .num "2"] = true ∧
      jsonDecode 2 (concatR [.arr [], .num "2"]) [] = some [.arr [], .num "2"] :=
  ⟨by decide, claim_C2 [.arr [], .num "2"] (by decide)⟩

/-- C5: every canonical single-scalar buffer decodes despite not being
RFC-legal top-level JSON: the single value token survives `runList`
(`topLevelPrimitive` keeps index 0), the root container is the internal
single-element wrapper array, the token loop leaves the scalar as the
wrapper's only element, the primitive completion unwraps the wrapper
(`result = result[0]`), and `jsonRawDecode` returns the scalar itself —
not the wrapper array — with the whole buffer consumed. -/
theorem claim_C5 (v : JValue) (hwf : JWF v = true) (hs : isContainer v = false) :
    ∃ t0 ts,
      tokenize (renderDoc v) = t0 :: ts ∧
      isPrimRoot t0.kind = true ∧
      rootCont t0.kind = .parr [] ∧
      runToks (runList (tokenize (renderDoc v))) ⟨[⟨.parr [], .rootSlot⟩], none, none⟩ =
        (⟨[⟨.parr [v], .rootSlot⟩], none, none⟩, none) ∧
      primResult ⟨[⟨.parr [v], .rootSlot⟩], none, none⟩ = some v ∧
      jsonRawDecode (renderDoc v) none = .pair v (renderDoc v).length := by
  obtain ⟨t0, ts, h1, h2, h3, h4, h5⟩ := scalar_decode_parts v hwf hs
  refine ⟨t0, ts, h1, h2, h3, h4, h5, ?_⟩
  have := rawDecode_scalar v none hwf hs
  simpa [applyRev] using this

theorem claim_C5_witness :
    JWF (.str "abc") = true ∧ isContainer (.str "abc") = false ∧
    (∃ t0 ts,
      tokenize (renderDoc (.str "abc")) = t0 :: ts ∧
      isPrimRoot t0.kind = true ∧
      rootCont t0.kind = .parr [] ∧
      runToks (runList (tokenize (renderDoc (.str "abc"))))
          ⟨[⟨.parr [], .rootSlot⟩], none, none⟩ =
        (⟨[⟨.parr [JValue.str "abc"], .rootSlot⟩], none, none⟩, none) ∧
      primResult ⟨[⟨.parr [JValue.str "abc"], .rootSlot⟩], none, none⟩ =
        some (.str "abc") ∧
      jsonRawDecode (renderDoc (.str "abc")) none =
        .pair (.str "abc") (renderDoc (.str "abc")).length) :=
  ⟨by decide, by decide, claim_C5 (.str "abc") (by decide) (by decide)⟩

/-- C8: a reviver is applied depth-first post-order from the synthetic
root holder: (1) for every flat wellformed object and non-root key, a
reviver returning `undefined` for that key yields an object from which the
key is absent (the fields filter to those with other keys); (2) the
reviver is called once more with the synthetic root key `""`, and a
replacement returned there becomes the overall result; (3) a replacement
returned for an inner key appears at that position in the final tree. -/
theorem claim_C8 :
    (∀ (fs : List (String × JValue)) (kdel : String),
      JWF (.obj fs) = true → Flat fs = true → kdel ≠ "" →
      jsonRawDecode (renderDoc (.obj fs)) (some (delRev kdel)) =
        .pair (.obj (fs.filter (fun kv => decide (kv.1 ≠ kdel))))
          (renderDoc (.obj fs)).length) ∧
    jsonRawDecode (renderDoc (.obj [("a", .num "1")]))
        (some (fun k v => if k = "" then .str "R" else v)) =
      .pair (.str "R") (renderDoc (.obj [("a", .num "1")])).length ∧
    jsonRawDecode (renderDoc (.obj [("a", .num "1")]))
        (some (fun k v => if k = "a" then .num "2" else v)) =
      .pair (.obj [("a", .num "2")]) (renderDoc (.obj [("a", .num "1")])).length := by
  refine ⟨?_, rfl, rfl⟩
  intro fs kdel hwf hflat hkdel
  have hw := rawDecode_container (.obj fs) [] (some (delRev kdel)) hwf rfl [] rfl rfl
  rw [List.append_nil] at hw
  rw [hw]
  rw [show applyRev (some (delRev kdel)) (.obj fs) =
        delRev kdel "" (.obj (walkFields (delRev kdel) fs)) from rfl]
  rw [show delRev kdel "" (.obj (walkFields (delRev kdel) fs)) =
        (if ("" : String) = kdel then .undef
         else .obj (walkFields (delRev kdel) fs)) from rfl]
  rw [if_neg (fun he => hkdel he.symm)]
  rw [walkFields_delRev kdel fs hwf hflat]
  rfl

theorem claim_C8_witness :
    (JWF (.obj [("a", .num "1"), ("b", .bool true)]) = true ∧
      Flat [("a", .num "1"), ("b", .bool true)] = true ∧
      ("a" : String) ≠ "") ∧
    jsonRawDecode (renderDoc (.obj [("a", .num "1"), ("b", .bool true)]))
        (some (delRev "a")) =
      .pair (.obj (([("a", .num "1"), ("b", .bool true)] :
            List (String × JValue)).filter (fun kv => decide (kv.1 ≠ "a"))))
        (renderDoc (.obj [("a", .num "1"), ("b", .bool true)])).length :=
  ⟨⟨by decide, by decide, by decide⟩,
    claim_C8.1 [("a", .num "1"), ("b", .bool true)] "a" (by decide) (by decide)
      (by decide)⟩

end BleJson
